import Mathlib

/-!
Verification of the adaptive chunking engine and retrieval scoring layer
of the Maroclear RAG pipeline.

Strings are modelled as `List Char`.  Python floats are modelled as exact
rationals `ℚ`; the decimal constants appearing in the code (0.25, 0.05,
0.50, 0.04, similarity thresholds) are represented by the rationals they
denote.  All candidate denominators occurring in the programs are far too
small for double rounding to flip any of the comparisons involved, so the
rational model agrees with the float semantics on every comparison the
theorems mention.
-/

set_option maxRecDepth 10000

abbrev Str := List Char

/-- Convert a Lean string literal to the `List Char` model. -/
def str (s : String) : Str := s.data

/-! ## Character classes -/

/-- Python `\s` on the character sets these programs manipulate
(space, tab, newline, carriage return, vertical tab, form feed). -/
def isPyWs (c : Char) : Bool :=
  c = ' ' || c = '\t' || c = '\n' || c = '\r' ||
  c = Char.ofNat 0x0b || c = Char.ofNat 0x0c

/-- ASCII letter, the class `[a-zA-Z]`. -/
def isAsciiLetter (c : Char) : Bool :=
  ('a' ≤ c && c ≤ 'z') || ('A' ≤ c && c ≤ 'Z')

/-- ASCII lowercase, the class `[a-z]`. -/
def isAsciiLower (c : Char) : Bool := 'a' ≤ c && c ≤ 'z'

/-- ASCII digit. -/
def isDigitChar (c : Char) : Bool := '0' ≤ c && c ≤ '9'

/-- The explicit accented-letter set `[éèêëàâùûîïôœç]` of the diacritic
repair rules in `_clean_pdf_text`. -/
def isAccent (c : Char) : Bool :=
  c = 'é' || c = 'è' || c = 'ê' || c = 'ë' || c = 'à' || c = 'â' ||
  c = 'ù' || c = 'û' || c = 'î' || c = 'ï' || c = 'ô' || c = 'œ' || c = 'ç'

/-- The class `[a-zà-ÿ]`: ASCII lowercase together with codepoints
U+00E0–U+00FF (a codepoint range, so it also contains `÷`). -/
def isLowerExt (c : Char) : Bool :=
  ('a' ≤ c && c ≤ 'z') || (0xE0 ≤ c.toNat && c.toNat ≤ 0xFF)

/-- The class `[A-ZÀ-Ÿ]`: ASCII uppercase together with the codepoint
range U+00C0–U+0178 (which, being a raw codepoint range, also contains
the accented lowercase letters and `×`, `÷`). -/
def isUpperExt (c : Char) : Bool :=
  ('A' ≤ c && c ≤ 'Z') || (0xC0 ≤ c.toNat && c.toNat ≤ 0x178)

/-- The control characters removed by `_clean_pdf_text` step 3:
`[\x00-\x08\x0b\x0c\x0e-\x1f\x7f]`. -/
def isControlStrip (c : Char) : Bool :=
  c.toNat ≤ 0x08 || c.toNat = 0x0b || c.toNat = 0x0c ||
  (0x0e ≤ c.toNat && c.toNat ≤ 0x1f) || c.toNat = 0x7f

/-! ## Generic string helpers -/

/-- Python `str.strip()`: drop leading and trailing whitespace. -/
def pyStrip (s : Str) : Str :=
  ((s.dropWhile isPyWs).reverse.dropWhile isPyWs).reverse

/-- Fuel-indexed scanner for Python `str.replace(pat, repl)`: replace
every occurrence of `pat`, scanning left to right, resuming after each
replaced region.  At least one character is consumed per step, so any
fuel of at least `s.length` gives the replacement's value. -/
def replaceAllAux (pat repl : Str) : ℕ → Str → Str
  | _, [] => []
  | 0, s => s
  | f + 1, c :: rest =>
    if pat.isPrefixOf (c :: rest) && !pat.isEmpty then
      repl ++ replaceAllAux pat repl f (rest.drop (pat.length - 1))
    else
      c :: replaceAllAux pat repl f rest

/-- Python `str.replace(pat, repl)`. -/
def replaceAll (pat repl : Str) (s : Str) : Str :=
  replaceAllAux pat repl s.length s

/-- Python `str.split()` (no argument): split on runs of whitespace,
discarding empty pieces.  `cur` is the reversed word currently being
accumulated. -/
def pySplitWsAux (cur : Str) : Str → List Str
  | [] => if cur.isEmpty then [] else [cur.reverse]
  | c :: rest =>
    if isPyWs c then
      if cur.isEmpty then pySplitWsAux [] rest
      else cur.reverse :: pySplitWsAux [] rest
    else pySplitWsAux (c :: cur) rest

/-- Python `str.split()`. -/
def pySplitWs (s : Str) : List Str := pySplitWsAux [] s

/-- Python `"\n".split` behaviour used by the chunker: split on `'\n'`,
keeping empty pieces. -/
def splitNl (s : Str) : List Str :=
  match s with
  | [] => [[]]
  | c :: rest =>
    if c = '\n' then [] :: splitNl rest
    else
      match splitNl rest with
      | [] => [[c]]
      | p :: ps => (c :: p) :: ps

/-! ## Text normalizer (src/rag/document_loader.py, `_clean_pdf_text`) -/

namespace DocumentLoader

/-- Step 1a: `re.sub(r'([a-zA-Z])\n([éèêëàâùûîïôœç])', r'\1\2', text)` —
rejoin an accented letter split onto the next line. -/
def joinAccentAfter : Str → Str
  | a :: '\n' :: e :: rest =>
    if isAsciiLetter a && isAccent e then a :: e :: joinAccentAfter rest
    else a :: joinAccentAfter ('\n' :: e :: rest)
  | c :: rest => c :: joinAccentAfter rest
  | [] => []

/-- Step 1b: `re.sub(r'([éèêëàâùûîïôœç])\n([a-z])', r'\1\2', text)` —
rejoin a word split right after an accented letter. -/
def joinAccentBefore : Str → Str
  | e :: '\n' :: a :: rest =>
    if isAccent e && isAsciiLower a then e :: a :: joinAccentBefore rest
    else e :: joinAccentBefore ('\n' :: a :: rest)
  | c :: rest => c :: joinAccentBefore rest
  | [] => []

/-- Step 1c: `re.sub(r'-\n([a-zà-ÿ])', r'\1', text)` — resolve hyphenated
line-end word breaks. -/
def joinHyphen : Str → Str
  | '-' :: '\n' :: a :: rest =>
    if isLowerExt a then a :: joinHyphen rest
    else '-' :: joinHyphen ('\n' :: a :: rest)
  | c :: rest => c :: joinHyphen rest
  | [] => []

/-- Step 2: the chain of `str.replace` calls normalizing typographic
apostrophes and quotes. -/
def normalizeQuotes (s : Str) : Str :=
  s |> replaceAll ['’'] ['\'']
    |> replaceAll ['‘'] ['\'']
    |> replaceAll ['′'] ['\'']
    |> replaceAll ['“'] ['"']
    |> replaceAll ['”'] ['"']
    |> replaceAll ['l', 'ʼ'] ['l', '\'']
    |> replaceAll ['d', 'ʼ'] ['d', '\'']
    |> replaceAll ['s', 'ʼ'] ['s', '\'']
    |> replaceAll ['n', 'ʼ'] ['n', '\'']
    |> replaceAll ['c', 'ʼ'] ['c', '\'']
    |> replaceAll ['j', 'ʼ'] ['j', '\'']
    |> replaceAll ['m', 'ʼ'] ['m', '\'']
    |> replaceAll ['t', 'ʼ'] ['t', '\'']

/-- Step 3: `re.sub(r'[\x00-\x08\x0b\x0c\x0e-\x1f\x7f]', '', text)`. -/
def stripControls (s : Str) : Str := s.filter (fun c => !isControlStrip c)

/-- State machine for step 4; `inRun` records whether the previous
character was a space (i.e. we are inside a space run whose single
representative has already been emitted). -/
def collapseSpacesAux : Bool → Str → Str
  | _, [] => []
  | inRun, c :: rest =>
    if c = ' ' then
      if inRun then collapseSpacesAux true rest
      else ' ' :: collapseSpacesAux true rest
    else c :: collapseSpacesAux false rest

/-- Step 4: `re.sub(r' {2,}', ' ', text)` — every maximal run of spaces
becomes a single space (runs of length 1 are untouched, which coincides
with collapsing every run). -/
def collapseSpaces (s : Str) : Str := collapseSpacesAux false s

/-- The match attempt of `re.sub(r'^\s*\d{1,3}\s*$', '', text, re.M)` at a
line-start position: `\s*` and `\d{1,3}` are deterministic here (their
character classes are disjoint from what follows them), and the trailing
`\s*$` backtracks to the last position of the whitespace run where `$`
holds (end of string, or just before a `'\n'`).  Returns the number of
characters consumed by the match, or `none`. -/
def matchPageNum (s : Str) : Option ℕ :=
  let w := (s.takeWhile isPyWs).length
  let t1 := s.drop w
  let d := (t1.takeWhile isDigitChar).length
  if d = 0 || 3 < d then none
  else
    let t2 := t1.drop d
    let ws2 := t2.takeWhile isPyWs
    if t2.length = ws2.length then some (w + d + ws2.length)
    else
      match (ws2.reverse.findIdx? (fun c => c = '\n')) with
      | some j => some (w + d + (ws2.length - 1 - j))
      | none => none

/-- Step 5, fuel-indexed: the scanning loop of the multiline page-number
removal: at each line-start position attempt `matchPageNum`; on a match,
drop the consumed characters (replacement is empty) and resume after
them.  Each step consumes at least one character, so any fuel of at
least `s.length` gives the substitution's value. -/
def removePageNumsAux : ℕ → Bool → Str → Str
  | _, _, [] => []
  | 0, _, s => s
  | f + 1, ls, c :: rest =>
    if ls then
      match matchPageNum (c :: rest) with
      | some n =>
        removePageNumsAux f (decide (((c :: rest).take n).getLast? = some '\n'))
          ((c :: rest).drop n)
      | none => c :: removePageNumsAux f (decide (c = '\n')) rest
    else c :: removePageNumsAux f (decide (c = '\n')) rest

def removePageNums (s : Str) : Str := removePageNumsAux s.length true s

/-- State machine for step 6, `re.sub(r'\n{3,}', '\n\n', text)`: `k`
saturates at 2 and counts the newlines already emitted for the current
newline run; a run of `n` newlines is emitted as `min n 2` newlines,
which is exactly the regex's effect. -/
def collapseNewlinesAux : ℕ → Str → Str
  | _, [] => []
  | k, '\n' :: rest =>
    if k < 2 then '\n' :: collapseNewlinesAux (k + 1) rest
    else collapseNewlinesAux k rest
  | _, c :: rest => c :: collapseNewlinesAux 0 rest

/-- Step 6: `re.sub(r'\n{3,}', '\n\n', text)`. -/
def collapseNewlines (s : Str) : Str := collapseNewlinesAux 0 s

/-- `DocumentLoader._clean_pdf_text`: the eight-step normalization
pipeline (three diacritic/hyphen repairs, quote normalization, control
stripping, space collapsing, page-number removal, newline collapsing),
followed by `str.strip()`. -/
def clean_pdf_text (s : Str) : Str :=
  s |> joinAccentAfter |> joinAccentBefore |> joinHyphen
    |> normalizeQuotes |> stripControls |> collapseSpaces
    |> removePageNums |> collapseNewlines |> pyStrip

end DocumentLoader

/-! ## Adaptive chunker (src/rag/smart_chunker.py) -/

namespace SmartChunker

inductive DocumentFormat where
  | glossary_newline
  | glossary_colon
  | glossary_inline
  | narrative
  | sectioned
deriving DecidableEq, Repr

/-- The `.value` string of each enum member. -/
def DocumentFormat.value : DocumentFormat → Str
  | .glossary_newline => str "glossary_newline"
  | .glossary_colon   => str "glossary_colon"
  | .glossary_inline  => str "glossary_inline"
  | .narrative        => str "narrative"
  | .sectioned        => str "sectioned"

/-- The metadata dictionary of a chunk: strategies set `type` and
optionally `term`; the coordinator later sets `source` and `format`. -/
structure Metadata where
  type   : Str
  term   : Option Str := none
  source : Option Str := none
  format : Option Str := none
deriving DecidableEq, Repr

structure Chunk where
  content  : Str
  metadata : Metadata
deriving DecidableEq, Repr

/-- Python `str.lower()`, modelled on the ASCII and Latin-1 ranges the
corpus uses (uppercase letters `A`–`Z` and `À`–`Þ` except `×` shift by
32); other codepoints pass through unchanged. -/
def pyLower (c : Char) : Char :=
  if 'A' ≤ c && c ≤ 'Z' then Char.ofNat (c.toNat + 32)
  else if 0xC0 ≤ c.toNat && c.toNat ≤ 0xDE && c.toNat ≠ 0xD7 then
    Char.ofNat (c.toNat + 32)
  else c

/-- The fixed list of French definition-starter prefixes of
`_is_term_line` (copied from the source, including the `ʼ` variants). -/
def definition_starters : List Str :=
  [str "le ", str "la ", str "les ", str "un ", str "une ", str "des ",
   str "il ", str "elle ", str "on ", str "ce ", str "cette ", str "ces ",
   str "toute ", str "tout ", str "dans ", str "lorsque ", str "se dit",
   str "correspond", str "désigne ", str "sont ", str "permet ",
   str "c'est ", str "cʼest ", str "en ", str "par ", str "pour ",
   str "selon ", str "dont ", str "qui ", str "que ", str "lʼ", str "l'"]

/-- `SmartChunker._is_term_line`. -/
def is_term_line (line : Str) : Bool :=
  if line.isEmpty || 100 < line.length then false
  else
    let lower := line.map pyLower
    if definition_starters.any (fun s => s.isPrefixOf lower) then false
    else if line.getLast? = some '.' && 30 < line.length then false
    else if line.contains ',' && 60 < line.length then false
    else true

/-- `SmartChunker._make_glossary_chunk`: content is
`f"{term}\n{' '.join(definition)}"` and the type is `narrative` (not
`glossaire`). -/
def make_glossary_chunk (term : Str) (definition : List Str) : Chunk :=
  { content  := term ++ '\n' :: List.intercalate [' '] definition
    metadata := { type := str "narrative", term := some term } }

/-- Python truthiness of an optional string. -/
def pyTruthyOpt : Option Str → Bool
  | none => false
  | some s => !s.isEmpty

/-- One iteration of the `_chunk_glossary_newline` line loop, over the
state `(chunks, current_term, current_def)`. -/
def gnStep (state : List Chunk × Option Str × List Str) (line : Str) :
    List Chunk × Option Str × List Str :=
  let (chunks, ct, cd) := state
  if line.isEmpty then state
  else if is_term_line line then
    let chunks' :=
      if pyTruthyOpt ct && !cd.isEmpty then
        chunks ++ [make_glossary_chunk (ct.getD []) cd]
      else chunks
    (chunks', some line, [])
  else (chunks, ct, cd ++ [line])

/-- `SmartChunker._chunk_glossary_newline`. -/
def chunk_glossary_newline (text : Str) : List Chunk :=
  let lines := (splitNl text).map pyStrip
  let s := lines.foldl gnStep ([], none, [])
  if pyTruthyOpt s.2.1 && !s.2.2.isEmpty then
    s.1 ++ [make_glossary_chunk (s.2.1.getD []) s.2.2]
  else s.1

/-- The anchored match `re.match(r'^([^:]{3,60}):\s+(.+)', line)` of
`_chunk_glossary_colon`: `[^:]{3,60}` can only end at the first colon;
`\s+` greedily takes the whitespace run after it and gives one character
back to `(.+)` only when the rest of the line is pure whitespace of
length at least 2. -/
def colonMatch (line : Str) : Option (Str × Str) :=
  let p := line.takeWhile (fun c => c ≠ ':')
  if p.length = line.length then none
  else if p.length < 3 || 60 < p.length then none
  else
    let rest := line.drop (p.length + 1)
    let m := (rest.takeWhile isPyWs).length
    if m = 0 then none
    else if m < rest.length then some (p, rest.drop m)
    else if 2 ≤ m then some (p, rest.drop (m - 1))
    else none

/-- `SmartChunker._chunk_glossary_colon`. -/
def chunk_glossary_colon (text : Str) : List Chunk :=
  (splitNl text).foldl
    (fun chunks line =>
      match colonMatch (pyStrip line) with
      | some td => chunks ++ [make_glossary_chunk td.1 [td.2]]
      | none => chunks)
    []

/-- The character class `[A-ZÀ-Ÿa-zà-ÿ/\-()\']` of the glossary-inline
preprocessing substitution (after Python source-level concatenation of
the two adjacent string literals). -/
def inlineClass1 (c : Char) : Bool :=
  isUpperExt c || isAsciiLower c ||
  c = '/' || c = '-' || c = '(' || c = ')' || c = '\''

/-- Does `[A-ZÀ-Ÿ][a-zà-ÿ]` match right after dropping `l` characters? -/
def glueAt (s : Str) (l : ℕ) : Bool :=
  match s.drop l with
  | u :: v :: _ => isUpperExt u && isLowerExt v
  | _ => false

/-- Greedy-with-backtracking group-1 length for
`([A-ZÀ-Ÿa-zà-ÿ/\-()\']{3,})([A-ZÀ-Ÿ][a-zà-ÿ])` anchored at the current
position: the largest `l ≤ R` (with `R` the maximal class-1 run) such
that `l ≥ 3` and the two-character group 2 matches after it. -/
def greatestGlue (s : Str) : ℕ → Option ℕ
  | 0 => none
  | l + 1 =>
    if 3 ≤ l + 1 && glueAt s (l + 1) then some (l + 1)
    else greatestGlue s l

/-- Match attempt of the inline-glue substitution at the current
position: returns the group-1 length on success. -/
def inlineMatchLen (s : Str) : Option ℕ :=
  greatestGlue s (s.takeWhile inlineClass1).length

/-- Fuel-indexed scanner of
`re.sub(pattern, lambda m: m.group(1) + "\n" + m.group(2), text)`:
on a match, emit group 1, a newline, and the two group-2 characters, and
resume after them.  Each step consumes at least one character. -/
def inlineSubAux : ℕ → Str → Str
  | _, [] => []
  | 0, s => s
  | f + 1, c :: rest =>
    match inlineMatchLen (c :: rest) with
    | some l =>
      (c :: rest).take l ++ '\n' :: ((c :: rest).drop l).take 2 ++
        inlineSubAux f ((c :: rest).drop (l + 2))
    | none => c :: inlineSubAux f rest

/-- The glossary-inline preprocessing substitution. -/
def inlineSub (text : Str) : Str := inlineSubAux text.length text

/-- `SmartChunker._chunk_glossary_inline`: preprocess, then delegate to
the newline strategy. -/
def chunk_glossary_inline (text : Str) : List Chunk :=
  chunk_glossary_newline (inlineSub text)

/-! ### Narrative chunking -/

/-- Sentence-ending punctuation of `re.split(r'(?<=[.!?])\s+', text)`. -/
def isSentEnd (c : Char) : Bool := c = '.' || c = '!' || c = '?'

def headIsWs : Str → Bool
  | [] => false
  | d :: _ => isPyWs d

/-- State machine for `re.split(r'(?<=[.!?])\s+', text)`: `piece` is the
reversed current piece; `skipping` means we are inside a separator
whitespace run (whose piece has already been emitted). -/
def splitSentencesAux : Bool → Str → Str → List Str
  | _, piece, [] => [piece.reverse]
  | skipping, piece, c :: rest =>
    if skipping && isPyWs c then splitSentencesAux true piece rest
    else if isSentEnd c && headIsWs rest then
      (c :: piece).reverse :: splitSentencesAux true [] rest
    else splitSentencesAux false (c :: piece) rest

def splitSentences (text : Str) : List Str := splitSentencesAux false [] text

/-- One iteration of the `_narrative_raw` sentence loop over the state
`(chunks, current)`.  On emission the next buffer is seeded with
`last_words[-overlap:]` (Python slice semantics: for `overlap = 0` this
is the whole list) joined by single spaces, then the new sentence. -/
def narrativeStep (chunk_size overlap : ℕ) (state : List Str × Str)
    (sentence : Str) : List Str × Str :=
  let (chunks, current) := state
  if chunk_size < current.length + sentence.length && !current.isEmpty then
    let last_words := pySplitWs current
    let overlap_words :=
      if overlap < last_words.length then
        if overlap = 0 then last_words
        else last_words.drop (last_words.length - overlap)
      else last_words
    (chunks ++ [pyStrip current],
     List.intercalate [' '] overlap_words ++ ' ' :: sentence)
  else (chunks, current ++ ' ' :: sentence)

/-- `SmartChunker._narrative_raw`. -/
def narrative_raw (text : Str) (chunk_size overlap : ℕ) : List Str :=
  let s := (splitSentences text).foldl (narrativeStep chunk_size overlap) ([], [])
  if !(pyStrip s.2).isEmpty then s.1 ++ [pyStrip s.2] else s.1

/-- `SmartChunker._chunk_narrative`. -/
def chunk_narrative (text : Str) (chunk_size overlap : ℕ) : List Chunk :=
  (narrative_raw text chunk_size overlap).map
    (fun c => { content := c, metadata := { type := str "narrative" } })

/-! ### Sectioned chunking -/

/-- The uppercase class `[A-ZÀÂÉÈÊËÎÏÔÙÛÜÇ]` of the section patterns. -/
def isUpperSec (c : Char) : Bool :=
  ('A' ≤ c && c ≤ 'Z') ||
  c = 'À' || c = 'Â' || c = 'É' || c = 'È' || c = 'Ê' || c = 'Ë' ||
  c = 'Î' || c = 'Ï' || c = 'Ô' || c = 'Ù' || c = 'Û' || c = 'Ü' || c = 'Ç'

/-- Is there some `k` with `5 ≤ k ≤ R` such that after dropping `k`
characters of `rest` we are at end of string or before a newline?  (The
multiline `$` positions reachable by the backtracking `{5,}` run.) -/
def existsRunEnd (rest : Str) : ℕ → Bool
  | 0 => false
  | k + 1 =>
    (5 ≤ k + 1 &&
      (match rest.drop (k + 1) with
       | [] => true
       | d :: _ => d = '\n')) ||
    existsRunEnd rest k

/-- Zero-width lookahead body of the sectioned split pattern
`(?=^(?:›\s+|\#{1,3}\s+|[A-ZÀÂÉÈÊËÎÏÔÙÛÜÇ][A-ZÀÂÉÈÊËÎÏÔÙÛÜÇ\s]{5,}$))`
matched at the current position (which the caller guarantees is a line
start).  `\s` may match newlines, so the uppercase run can cross lines;
`$` is multiline. -/
def sectionHeaderAt (s : Str) : Bool :=
  (match s with
   | '›' :: d :: _ => isPyWs d
   | _ => false) ||
  (let h := (s.takeWhile (fun c => c = '#')).length
   (1 ≤ h && h ≤ 3 &&
     (match s.drop h with
      | d :: _ => isPyWs d
      | [] => false))) ||
  (match s with
   | c :: rest =>
     isUpperSec c &&
       existsRunEnd rest
         (rest.takeWhile (fun d => isUpperSec d || isPyWs d)).length
   | [] => false)

/-- `pattern.split(text)` for the zero-width section-header lookahead:
cut immediately before every line-start position where the header
pattern matches.  `acc` is the reversed current piece, `ls` the
line-start flag. -/
def sectionedSplitAux (acc : Str) (ls : Bool) : Str → List Str
  | [] => [acc.reverse]
  | c :: rest =>
    if ls && sectionHeaderAt (c :: rest) then
      acc.reverse :: sectionedSplitAux [c] (decide (c = '\n')) rest
    else sectionedSplitAux (c :: acc) (decide (c = '\n')) rest

def sectionedSplit (text : Str) : List Str := sectionedSplitAux [] true text

/-- `SmartChunker._chunk_sectioned`: sections longer than `chunk_size`
are re-segmented by `_narrative_raw` (called with the default
`overlap = 80`) and tagged `narrative`; the rest are emitted whole as
`section`; empty sections are dropped. -/
def chunk_sectioned (text : Str) (chunk_size : ℕ) : List Chunk :=
  (sectionedSplit text).foldl
    (fun chunks piece =>
      let sec := pyStrip piece
      if sec.isEmpty then chunks
      else if chunk_size < sec.length then
        chunks ++ (narrative_raw sec chunk_size 80).map
          (fun sub => { content := sub, metadata := { type := str "narrative" } })
      else chunks ++ [{ content := sec, metadata := { type := str "section" } }])
    []

/-! ### Format detection -/

/-- The non-empty stripped lines of the first 5000 characters. -/
def detectLines (text : Str) : List Str :=
  ((splitNl (text.take 5000)).map pyStrip).filter (fun l => !l.isEmpty)

def detectTotal (text : Str) : ℕ := (detectLines text).length

/-- `short_followed_by_long`: lines shorter than 80 characters whose
immediate successor is longer than 80 characters. -/
def countShortLong : List Str → ℕ
  | l1 :: l2 :: rest =>
    (if l1.length < 80 && 80 < l2.length then 1 else 0) +
      countShortLong (l2 :: rest)
  | _ => 0

/-- `re.match(r'^[^:]{3,60}:\s+[A-ZÀ-Ÿ]', line)`: the label can only end
at the line's first colon; after the colon a whitespace run of length at
least 1 must be followed by a character of `[A-ZÀ-Ÿ]`. -/
def colonSig (line : Str) : Bool :=
  let p := line.takeWhile (fun c => c ≠ ':')
  if p.length = line.length then false
  else if p.length < 3 || 60 < p.length then false
  else
    let rest := line.drop (p.length + 1)
    let m := (rest.takeWhile isPyWs).length
    1 ≤ m &&
      (match rest.drop m with
       | u :: _ => isUpperExt u
       | [] => false)

/-- `re.match(r'^(›|#{1,3}\s|[A-ZÀÂÉÈÊËÎÏÔÙÛÜÇ\s]{6,}$)', line)`: note
the detection pattern differs from the split pattern — a bare `›`
suffices, and the uppercase-run alternative admits whitespace in its
first character and requires the run to fill the whole (stripped)
line. -/
def sectionSig (line : Str) : Bool :=
  (match line with
   | '›' :: _ => true
   | _ => false) ||
  (let h := (line.takeWhile (fun c => c = '#')).length
   (1 ≤ h && h ≤ 3 &&
     (match line.drop h with
      | d :: _ => isPyWs d
      | [] => false))) ||
  (6 ≤ line.length && line.all (fun c => isUpperSec c || isPyWs c))

/-- `re.search(r'[a-zà-ÿ]{3,}[A-ZÀ-Ÿ][a-zà-ÿ]', line)`: equivalent to the
existence of a five-character window of three `[a-zà-ÿ]`, one `[A-ZÀ-Ÿ]`
and one `[a-zà-ÿ]` (the last three characters of a longer run form such
a window). -/
def inlineSig : Str → Bool
  | c1 :: c2 :: c3 :: c4 :: c5 :: rest =>
    (isLowerExt c1 && isLowerExt c2 && isLowerExt c3 &&
     isUpperExt c4 && isLowerExt c5) ||
    inlineSig (c2 :: c3 :: c4 :: c5 :: rest)
  | _ => false

def scoreNewline (text : Str) : ℚ :=
  (countShortLong (detectLines text) : ℚ) / (detectTotal text : ℚ)

def scoreColon (text : Str) : ℚ :=
  ((detectLines text).countP colonSig : ℚ) / (detectTotal text : ℚ)

def scoreInline (text : Str) : ℚ :=
  ((detectLines text).countP inlineSig : ℚ) / (detectTotal text : ℚ)

def scoreSectioned (text : Str) : ℚ :=
  ((detectLines text).countP sectionSig : ℚ) / (detectTotal text : ℚ)

/-- `max(scores, key=scores.get)`: the first key of the dict (insertion
order `glossary_newline`, `glossary_colon`, `glossary_inline`,
`sectioned`) attaining the maximal score. -/
def rawWinner (text : Str) : DocumentFormat :=
  if scoreColon text ≤ scoreNewline text ∧ scoreInline text ≤ scoreNewline text ∧
      scoreSectioned text ≤ scoreNewline text then .glossary_newline
  else if scoreInline text ≤ scoreColon text ∧
      scoreSectioned text ≤ scoreColon text then .glossary_colon
  else if scoreSectioned text ≤ scoreInline text then .glossary_inline
  else .sectioned

/-- The raw signature score of a format (`narrative` has no entry in the
scores dict; it is given 0 here and is never looked up by the code). -/
def rawScore (text : Str) : DocumentFormat → ℚ
  | .glossary_newline => scoreNewline text
  | .glossary_colon   => scoreColon text
  | .glossary_inline  => scoreInline text
  | .sectioned        => scoreSectioned text
  | .narrative        => 0

/-- The inline-false-positive override block of `detect_format`. -/
def bestAfterOverride (text : Str) : DocumentFormat :=
  let best := rawWinner text
  if best = .glossary_inline then
    if 1/4 ≤ scoreNewline text then .glossary_newline
    else if 1/20 ≤ scoreSectioned text then .sectioned
    else if rawScore text best < 1/2 then .narrative
    else best
  else best

/-- `SmartChunker.detect_format`: empty sample → `narrative`; otherwise
argmax, inline-override, and the final `< 0.04` guard (which only looks
up formats present in the scores dict, i.e. not `narrative`). -/
def detect_format (text : Str) : DocumentFormat :=
  if detectTotal text = 0 then .narrative
  else
    let best := bestAfterOverride text
    if best ≠ .narrative ∧ rawScore text best < 1/25 then .narrative
    else best

/-! ### Coordinator -/

/-- `SmartChunker.chunk`: dispatch on the forced or detected format,
then post-process every chunk: set `source` and `format`, and rewrite a
`glossaire` type to `narrative`. -/
def chunk (text source : Str) (force_format : Option DocumentFormat)
    (chunk_size overlap : ℕ) : List Chunk :=
  let fmt := force_format.getD (detect_format text)
  let chunks :=
    match fmt with
    | .glossary_newline => chunk_glossary_newline text
    | .glossary_colon   => chunk_glossary_colon text
    | .glossary_inline  => chunk_glossary_inline text
    | .sectioned        => chunk_sectioned text chunk_size
    | .narrative        => chunk_narrative text chunk_size overlap
  chunks.map (fun c =>
    { c with
      metadata :=
        { c.metadata with
          source := some source
          format := some fmt.value
          type :=
            if c.metadata.type = str "glossaire" then str "narrative"
            else c.metadata.type } })

end SmartChunker

/-! ## Retrieval scorer (src/rag/retriever.py) -/

namespace Retriever

/-- One raw nearest-neighbour candidate as returned by the vector store:
the per-index-aligned arrays `documents`, `distances`, `metadatas`, `ids`
of `LocalVectorStore.query` are modelled as a single list of records. -/
structure Candidate where
  document : Str
  distance : ℚ
  metadata : List (Str × Str)
  id       : Str
deriving DecidableEq, Repr

/-- A retrieved document as built inside `Retriever.retrieve`. -/
structure RetrievedDoc where
  content  : Str
  metadata : List (Str × Str)
  score    : ℚ
  id       : Str
deriving DecidableEq, Repr

/-- The candidate-processing core of `Retriever.retrieve`: for each raw
candidate compute `similarity = 1.0 - cosine_distance`, keep it when
`similarity >= similarity_threshold` (in the store's original order),
then truncate the surviving list to `top_k`.  The embedding call and the
store query are external collaborators; `results` is whatever list the
store returned. -/
def retrieve (results : List Candidate) (top_k : ℕ) (similarity_threshold : ℚ) :
    List RetrievedDoc :=
  (((results.filter fun c => similarity_threshold ≤ 1 - c.distance)).map fun c =>
      { content  := c.document
        metadata := c.metadata
        score    := 1 - c.distance
        id       := c.id }).take top_k

end Retriever

/-- C3: `retrieve` returns at most `top_k` documents, every returned
document's score is at least `similarity_threshold`, and when no candidate
survives the filter the result is the empty sequence (no fallback document,
no error). -/
theorem C3_retrieve_contract (results : List Retriever.Candidate) (top_k : ℕ)
    (thr : ℚ) :
    (Retriever.retrieve results top_k thr).length ≤ top_k ∧
    (∀ d ∈ Retriever.retrieve results top_k thr, thr ≤ d.score) ∧
    ((∀ c ∈ results, 1 - c.distance < thr) →
      Retriever.retrieve results top_k thr = []) := by
  refine ⟨List.length_take_le _ _, ?_, ?_⟩
  · intro d hd
    have hd' := List.mem_of_mem_take hd
    rcases List.mem_map.mp hd' with ⟨c, hc, rfl⟩
    have := (List.mem_filter.mp hc).2
    simpa using of_decide_eq_true this
  · intro h
    have : results.filter (fun c => decide (thr ≤ 1 - c.distance)) = [] := by
      rw [List.filter_eq_nil_iff]
      intro c hc
      simp only [decide_eq_true_eq]
      exact not_le.mpr (h c hc)
    simp [Retriever.retrieve, this]

/-- Witness for C3 at a concrete candidate list. -/
theorem C3_retrieve_contract_witness :
    (Retriever.retrieve [⟨str "doc", 7/10, [], str "a"⟩] 2 (1/2)).length ≤ 2 ∧
    Retriever.retrieve [⟨str "doc", 7/10, [], str "a"⟩] 2 (1/2) = [] := by
  have h := C3_retrieve_contract [⟨str "doc", 7/10, [], str "a"⟩] 2 (1/2)
  refine ⟨h.1, h.2.2 ?_⟩
  intro c hc
  rcases List.mem_singleton.mp hc with rfl
  norm_num

/-- C6: on raw distances 0.1, 0.3, 0.9 with `similarity_threshold = 0.5`
and `top_k ≥ 2`, `retrieve` returns exactly the first two candidates, with
scores 0.9 and 0.7 (each equal to 1 minus the raw distance), in descending
score order — the store's original order. -/
theorem C6_retrieve_scenarioE (c1 c2 c3 : Retriever.Candidate)
    (h1 : c1.distance = 1/10) (h2 : c2.distance = 3/10)
    (h3 : c3.distance = 9/10) (k : ℕ) (hk : 2 ≤ k) :
    Retriever.retrieve [c1, c2, c3] k (1/2) =
      [⟨c1.document, c1.metadata, 9/10, c1.id⟩,
       ⟨c2.document, c2.metadata, 7/10, c2.id⟩] := by
  have e1 : (decide ((1:ℚ)/2 ≤ 1 - c1.distance)) = true := by
    rw [h1]; norm_num
  have e2 : (decide ((1:ℚ)/2 ≤ 1 - c2.distance)) = true := by
    rw [h2]; norm_num
  have e3 : (decide ((1:ℚ)/2 ≤ 1 - c3.distance)) = false := by
    rw [h3]; norm_num
  simp only [Retriever.retrieve, List.filter, e1, e2, e3, List.map]
  rw [List.take_of_length_le (by simpa using hk)]
  rw [h1, h2]
  norm_num

/-- Witness for C6 at concrete candidates and `top_k = 2`. -/
theorem C6_retrieve_scenarioE_witness :
    Retriever.retrieve
      [⟨str "d1", 1/10, [], str "i1"⟩, ⟨str "d2", 3/10, [], str "i2"⟩,
       ⟨str "d3", 9/10, [], str "i3"⟩] 2 (1/2) =
      [⟨str "d1", [], 9/10, str "i1"⟩, ⟨str "d2", [], 7/10, str "i2"⟩] := by
  exact C6_retrieve_scenarioE _ _ _ rfl rfl rfl 2 (by norm_num)

/-- C7: for a fixed candidate list and fixed `top_k`, the number of
documents returned by `retrieve` is antitone in `similarity_threshold`. -/
theorem C7_threshold_antitone (results : List Retriever.Candidate) (top_k : ℕ)
    (t1 t2 : ℚ) (h : t1 ≤ t2) :
    (Retriever.retrieve results top_k t2).length ≤
      (Retriever.retrieve results top_k t1).length := by
  simp only [Retriever.retrieve, List.length_take, List.length_map]
  apply min_le_min le_rfl
  apply List.Sublist.length_le
  apply List.monotone_filter_right
  intro c
  simp only [decide_eq_true_eq]
  exact fun hc => le_trans h hc

/-- Witness for C7 at a concrete candidate list and thresholds. -/
theorem C7_threshold_antitone_witness :
    (Retriever.retrieve [⟨str "d", 2/10, [], str "i"⟩] 3 (9/10)).length ≤
      (Retriever.retrieve [⟨str "d", 2/10, [], str "i"⟩] 3 (1/10)).length :=
  C7_threshold_antitone [⟨str "d", 2/10, [], str "i"⟩] 3 (1/10) (9/10)
    (by norm_num)

/-- C10: `retrieve` never clamps scores — every returned document's score
is exactly 1 minus some candidate's raw distance (with matching id), and a
negative raw distance yields a returned score strictly greater than 1. -/
theorem C10_no_clamping :
    (∀ (results : List Retriever.Candidate) (k : ℕ) (t : ℚ),
      ∀ d ∈ Retriever.retrieve results k t,
        ∃ c ∈ results, d.score = 1 - c.distance ∧ d.id = c.id) ∧
    (∃ (results : List Retriever.Candidate) (k : ℕ) (t : ℚ)
        (d : Retriever.RetrievedDoc),
      d ∈ Retriever.retrieve results k t ∧ 1 < d.score) := by
  constructor
  · intro results k t d hd
    have hd' := List.mem_of_mem_take hd
    rcases List.mem_map.mp hd' with ⟨c, hc, rfl⟩
    exact ⟨c, (List.mem_filter.mp hc).1, rfl, rfl⟩
  · refine ⟨[⟨str "d", -1/2, [], str "i"⟩], 1, 0,
      ⟨str "d", [], 3/2, str "i"⟩, ?_, by norm_num⟩
    simp [Retriever.retrieve, List.filter]
    norm_num

/-- Witness for C10's universally quantified part at a concrete input. -/
theorem C10_no_clamping_witness :
    ∃ c ∈ [(⟨str "d", -1/2, [], str "i"⟩ : Retriever.Candidate)],
      (3/2 : ℚ) = 1 - c.distance ∧ str "i" = c.id := by
  have h := C10_no_clamping.1 [⟨str "d", -1/2, [], str "i"⟩] 1 0
    ⟨str "d", [], 3/2, str "i"⟩
  apply h
  simp [Retriever.retrieve, List.filter]
  norm_num


/-! ## Chunker theorems -/

/-- A generic fold invariant. -/
theorem foldl_inv {α β : Type} (f : β → α → β) (Q : β → Prop)
    (hf : ∀ b a, Q b → Q (f b a)) :
    ∀ (l : List α) (b : β), Q b → Q (List.foldl f b l) := by
  intro l
  induction l with
  | nil => intro b hb; exact hb
  | cons x xs ih => intro b hb; exact ih _ (hf _ _ hb)

theorem pyTruthyOpt_iff {o : Option Str} :
    SmartChunker.pyTruthyOpt o = true ↔ ∃ t, o = some t ∧ t ≠ [] := by
  cases o with
  | none => simp [SmartChunker.pyTruthyOpt]
  | some t =>
    simp [SmartChunker.pyTruthyOpt, List.isEmpty_iff]

/-- Every chunk the newline-glossary strategy emits is a
`make_glossary_chunk` with a non-empty term and a non-empty accumulated
definition list. -/
theorem gn_shape (text : Str) :
    ∀ c ∈ SmartChunker.chunk_glossary_newline text,
      ∃ t d, d ≠ [] ∧ t ≠ [] ∧ c = SmartChunker.make_glossary_chunk t d := by
  intro c hc
  unfold SmartChunker.chunk_glossary_newline at hc
  set lines := (splitNl text).map pyStrip with hlines
  have hfold :
      ∀ c ∈ (List.foldl SmartChunker.gnStep ([], none, []) lines).1,
        ∃ t d, d ≠ [] ∧ t ≠ [] ∧ c = SmartChunker.make_glossary_chunk t d := by
    have := foldl_inv SmartChunker.gnStep
      (fun st => ∀ c ∈ st.1,
        ∃ t d, d ≠ [] ∧ t ≠ [] ∧ c = SmartChunker.make_glossary_chunk t d)
      ?_ lines ([], none, []) (by intro c hc; simp at hc)
    · exact this
    · intro st line hst
      rcases st with ⟨chunks, ct, cd⟩
      unfold SmartChunker.gnStep
      dsimp only
      split
      · exact hst
      · split
        · dsimp only
          split
          · rename_i hguard
            simp only [Bool.and_eq_true] at hguard
            rcases pyTruthyOpt_iff.mp hguard.1 with ⟨t, hct, ht⟩
            intro c hc
            rcases List.mem_append.mp hc with h | h
            · exact hst c h
            · rcases List.mem_singleton.mp h with rfl
              refine ⟨t, cd, ?_, ht, by rw [hct]; rfl⟩
              simpa [List.isEmpty_iff] using hguard.2
          · exact hst
        · exact hst
  dsimp only at hc
  split at hc
  · rename_i hguard
    simp only [Bool.and_eq_true] at hguard
    rcases List.mem_append.mp hc with h | h
    · exact hfold c h
    · rcases List.mem_singleton.mp h with rfl
      rcases pyTruthyOpt_iff.mp hguard.1 with ⟨t, hct, ht⟩
      refine ⟨t, _, ?_, ht, by rw [hct]; rfl⟩
      simpa [List.isEmpty_iff] using hguard.2
  · exact hfold c hc

/-- C9: `chunk_size` is not a hard upper bound on narrative chunk
length — a single sentence longer than `chunk_size` is emitted whole, so
there is an input on which `_narrative_raw` (with the default
`chunk_size = 600`, `overlap = 80`) emits a chunk strictly longer than
`chunk_size` characters. -/
theorem C9_chunk_size_not_hard_bound :
    ∃ text : Str, ∃ c ∈ SmartChunker.narrative_raw text 600 80,
      600 < c.length := by
  refine ⟨List.replicate 601 'a', List.replicate 601 'a', ?_, by simp⟩
  have h : SmartChunker.narrative_raw (List.replicate 601 'a') 600 80 =
      [List.replicate 601 'a'] := by decide
  rw [h]
  exact List.mem_singleton.mpr rfl

/-- C8: the `glossary_newline` strategy on
`"Maroclear\nLe dépositaire central des titres au Maroc."` yields exactly
one chunk, whose `term` is `"Maroclear"` and whose content starts with
`"Maroclear\nLe dépositaire"`; and on every input a term line with no
accumulated definition lines is never emitted (every emitted chunk is a
`make_glossary_chunk` of a non-empty term with a non-empty definition
list). -/
theorem C8_glossary_newline_scenarioA :
    ((SmartChunker.chunk_glossary_newline
        (str "Maroclear\nLe dépositaire central des titres au Maroc.")).length = 1 ∧
     ∀ c ∈ SmartChunker.chunk_glossary_newline
        (str "Maroclear\nLe dépositaire central des titres au Maroc."),
        c.metadata.term = some (str "Maroclear") ∧
        (str "Maroclear\nLe dépositaire") <+: c.content) ∧
    (∀ text : Str, ∀ c ∈ SmartChunker.chunk_glossary_newline text,
      ∃ t d, d ≠ [] ∧ t ≠ [] ∧ c = SmartChunker.make_glossary_chunk t d) := by
  refine ⟨⟨by decide, ?_⟩, gn_shape⟩
  intro c hc
  have h : SmartChunker.chunk_glossary_newline
      (str "Maroclear\nLe dépositaire central des titres au Maroc.") =
      [SmartChunker.make_glossary_chunk (str "Maroclear")
        [str "Le dépositaire central des titres au Maroc."]] := by decide
  rw [h] at hc
  rcases List.mem_singleton.mp hc with rfl
  constructor
  · rfl
  · exact ⟨str " central des titres au Maroc.", by decide⟩

/-- Witness for C8's universally quantified part at a concrete input. -/
theorem C8_glossary_newline_scenarioA_witness :
    ∃ t d, d ≠ [] ∧ t ≠ [] ∧
      SmartChunker.make_glossary_chunk (str "Maroclear")
        [str "Le dépositaire central des titres au Maroc."] =
        SmartChunker.make_glossary_chunk t d :=
  C8_glossary_newline_scenarioA.2
    (str "Maroclear\nLe dépositaire central des titres au Maroc.")
    (SmartChunker.make_glossary_chunk (str "Maroclear")
      [str "Le dépositaire central des titres au Maroc."])
    (by decide)

/-- All colon-strategy chunks carry type `narrative`. -/
theorem colon_type (text : Str) :
    ∀ c ∈ SmartChunker.chunk_glossary_colon text,
      c.metadata.type = str "narrative" := by
  unfold SmartChunker.chunk_glossary_colon
  refine foldl_inv _
    (fun (acc : List SmartChunker.Chunk) =>
      ∀ c ∈ acc, c.metadata.type = str "narrative") ?_ _ _ ?_
  · intro acc line hacc
    cases h : SmartChunker.colonMatch (pyStrip line) with
    | none => simpa [h] using hacc
    | some td =>
      simp only [h]
      intro c hc
      rcases List.mem_append.mp hc with hmem | hmem
      · exact hacc c hmem
      · rcases List.mem_singleton.mp hmem with rfl; rfl
  · intro c hc; simp at hc

/-- All newline-strategy chunks carry type `narrative`. -/
theorem gn_type (text : Str) :
    ∀ c ∈ SmartChunker.chunk_glossary_newline text,
      c.metadata.type = str "narrative" := by
  intro c hc
  rcases gn_shape text c hc with ⟨t, d, _, _, rfl⟩
  rfl

/-- All sectioned-strategy chunks carry type `narrative` or `section`. -/
theorem sect_type (text : Str) (cs : ℕ) :
    ∀ c ∈ SmartChunker.chunk_sectioned text cs,
      c.metadata.type = str "narrative" ∨ c.metadata.type = str "section" := by
  unfold SmartChunker.chunk_sectioned
  refine foldl_inv _
    (fun (acc : List SmartChunker.Chunk) => ∀ c ∈ acc,
      c.metadata.type = str "narrative" ∨ c.metadata.type = str "section")
    ?_ _ _ ?_
  · intro acc piece hacc
    dsimp only
    split
    · exact hacc
    · split
      · intro c hc
        rcases List.mem_append.mp hc with hmem | hmem
        · exact hacc c hmem
        · rcases List.mem_map.mp hmem with ⟨s, _, rfl⟩
          exact Or.inl rfl
      · intro c hc
        rcases List.mem_append.mp hc with hmem | hmem
        · exact hacc c hmem
        · rcases List.mem_singleton.mp hmem with rfl
          exact Or.inr rfl
  · intro c hc; simp at hc

/-- C1: no chunk produced by `chunk()` — for any input, source, forced or
detected format, and any of the five strategies — carries the reserved
glossary type: its `metadata.type` is neither `"glossary"` nor the
source's `"glossaire"`. -/
theorem C1_glossary_type_exclusion (text source : Str)
    (ff : Option SmartChunker.DocumentFormat) (cs ov : ℕ) :
    ∀ c ∈ SmartChunker.chunk text source ff cs ov,
      c.metadata.type ≠ str "glossary" ∧ c.metadata.type ≠ str "glossaire" := by
  intro c hc
  unfold SmartChunker.chunk at hc
  set fmt := ff.getD (SmartChunker.detect_format text) with hfmt
  clear_value fmt
  dsimp only at hc
  rcases List.mem_map.mp hc with ⟨c0, hc0, rfl⟩
  have htype : c0.metadata.type = str "narrative" ∨
      c0.metadata.type = str "section" := by
    revert hc0
    cases fmt with
    | glossary_newline => intro hc0; exact Or.inl (gn_type text c0 hc0)
    | glossary_colon => intro hc0; exact Or.inl (colon_type text c0 hc0)
    | glossary_inline =>
      intro hc0
      exact Or.inl (gn_type (SmartChunker.inlineSub text) c0 hc0)
    | sectioned => intro hc0; exact sect_type text cs c0 hc0
    | narrative =>
      intro hc0
      rcases List.mem_map.mp hc0 with ⟨s, _, rfl⟩
      exact Or.inl rfl
  rcases htype with h | h <;>
    simp only [h] <;> exact ⟨by decide, by decide⟩

/-- Witness for C1 at a concrete input. -/
theorem C1_glossary_type_exclusion_witness :
    (SmartChunker.Chunk.mk (str "Hello world.")
        { type := str "narrative", source := some (str "s"),
          format := some (str "narrative") }).metadata.type ≠ str "glossary" ∧
    (SmartChunker.Chunk.mk (str "Hello world.")
        { type := str "narrative", source := some (str "s"),
          format := some (str "narrative") }).metadata.type ≠ str "glossaire" := by
  apply C1_glossary_type_exclusion (str "Hello world.") (str "s")
    (some SmartChunker.DocumentFormat.narrative) 600 80
  decide

/-- With an empty line sample all four signature scores are zero. -/
theorem scores_zero_of_total_zero (text : Str)
    (h0 : SmartChunker.detectTotal text = 0) :
    SmartChunker.scoreNewline text = 0 ∧ SmartChunker.scoreColon text = 0 ∧
    SmartChunker.scoreInline text = 0 ∧ SmartChunker.scoreSectioned text = 0 := by
  have hl : SmartChunker.detectLines text = [] := List.length_eq_zero.mp h0
  refine ⟨?_, ?_, ?_, ?_⟩ <;>
    simp [SmartChunker.scoreNewline, SmartChunker.scoreColon,
      SmartChunker.scoreInline, SmartChunker.scoreSectioned, hl,
      SmartChunker.countShortLong]

/-- C4: detection overrides for an inline raw winner — strong newline
signal overrides to `glossary_newline`, else a sectioned signal at least
0.05 overrides to `sectioned`, else an inline score below 0.50 falls
back to `narrative`; and whenever the format selected after overrides
has raw score below 0.04, the result is `narrative`. -/
theorem C4_detect_format_overrides (text : Str) :
    (SmartChunker.rawWinner text = SmartChunker.DocumentFormat.glossary_inline →
      ((1/4 ≤ SmartChunker.scoreNewline text →
          SmartChunker.detect_format text =
            SmartChunker.DocumentFormat.glossary_newline) ∧
       (SmartChunker.scoreNewline text < 1/4 →
          1/20 ≤ SmartChunker.scoreSectioned text →
          SmartChunker.detect_format text =
            SmartChunker.DocumentFormat.sectioned) ∧
       (SmartChunker.scoreNewline text < 1/4 →
          SmartChunker.scoreSectioned text < 1/20 →
          SmartChunker.scoreInline text < 1/2 →
          SmartChunker.detect_format text =
            SmartChunker.DocumentFormat.narrative))) ∧
    (SmartChunker.rawScore text (SmartChunker.bestAfterOverride text) < 1/25 →
      SmartChunker.detect_format text = SmartChunker.DocumentFormat.narrative) := by
  constructor
  · intro hwin
    have htot : ¬ SmartChunker.detectTotal text = 0 := by
      intro h0
      rcases scores_zero_of_total_zero text h0 with ⟨h1, h2, h3, h4⟩
      have : SmartChunker.rawWinner text =
          SmartChunker.DocumentFormat.glossary_newline := by
        unfold SmartChunker.rawWinner
        rw [h1, h2, h3, h4]
        norm_num
      rw [this] at hwin
      exact absurd hwin (by decide)
    refine ⟨?_, ?_, ?_⟩
    · intro h14
      have hbest : SmartChunker.bestAfterOverride text =
          SmartChunker.DocumentFormat.glossary_newline := by
        unfold SmartChunker.bestAfterOverride
        rw [hwin]
        simp only [if_pos rfl, if_pos h14, if_true]
      unfold SmartChunker.detect_format
      rw [if_neg htot, hbest]
      rw [if_neg]
      intro hcontra
      have : SmartChunker.rawScore text
          SmartChunker.DocumentFormat.glossary_newline < 1/25 := hcontra.2
      unfold SmartChunker.rawScore at this
      have h' : (1:ℚ)/25 < 1/4 := by norm_num
      linarith
    · intro hlt h05
      have hbest : SmartChunker.bestAfterOverride text =
          SmartChunker.DocumentFormat.sectioned := by
        unfold SmartChunker.bestAfterOverride
        rw [hwin]
        simp only [if_pos rfl, if_neg (not_le.mpr hlt), if_pos h05, if_true]
      unfold SmartChunker.detect_format
      rw [if_neg htot, hbest]
      rw [if_neg]
      intro hcontra
      have : SmartChunker.rawScore text
          SmartChunker.DocumentFormat.sectioned < 1/25 := hcontra.2
      unfold SmartChunker.rawScore at this
      have h' : (1:ℚ)/25 < 1/20 := by norm_num
      linarith
    · intro hlt hse hin
      have hbest : SmartChunker.bestAfterOverride text =
          SmartChunker.DocumentFormat.narrative := by
        unfold SmartChunker.bestAfterOverride
        rw [hwin]
        have hin' : SmartChunker.rawScore text
            (SmartChunker.DocumentFormat.glossary_inline) < 1/2 := hin
        simp only [if_pos rfl, if_neg (not_le.mpr hlt),
          if_neg (not_le.mpr hse), if_pos hin', if_true]
      unfold SmartChunker.detect_format
      rw [if_neg htot, hbest]
      rw [if_neg]
      intro hcontra
      exact hcontra.1 rfl
  · intro hsmall
    by_cases h0 : SmartChunker.detectTotal text = 0
    · unfold SmartChunker.detect_format
      rw [if_pos h0]
    · unfold SmartChunker.detect_format
      rw [if_neg h0]
      by_cases hnarr : SmartChunker.bestAfterOverride text =
          SmartChunker.DocumentFormat.narrative
      · rw [if_neg, hnarr]
        intro hcontra
        exact hcontra.1 hnarr
      · rw [if_pos ⟨hnarr, hsmall⟩]

/-- Witness for C4 at a concrete text whose raw winner is
`glossary_inline` while the newline score is 1/2 ≥ 0.25. -/
theorem C4_detect_format_overrides_witness :
    SmartChunker.detect_format (str "abcDe xy\nabcDeaaaaaaaaaaaaaaaaaaaaaaaaaaaaaaaaaaaaaaaaaaaaaaaaaaaaaaaaaaaaaaaaaaaaaaaaaaaa\nabcDe xy\nabcDeaaaaaaaaaaaaaaaaaaaaaaaaaaaaaaaaaaaaaaaaaaaaaaaaaaaaaaaaaaaaaaaaaaaaaaaaaaaa") =
      SmartChunker.DocumentFormat.glossary_newline := by
  have e1 : SmartChunker.scoreNewline (str "abcDe xy\nabcDeaaaaaaaaaaaaaaaaaaaaaaaaaaaaaaaaaaaaaaaaaaaaaaaaaaaaaaaaaaaaaaaaaaaaaaaaaaaa\nabcDe xy\nabcDeaaaaaaaaaaaaaaaaaaaaaaaaaaaaaaaaaaaaaaaaaaaaaaaaaaaaaaaaaaaaaaaaaaaaaaaaaaaa") = 1/2 := by
    unfold SmartChunker.scoreNewline SmartChunker.detectTotal
    rw [show SmartChunker.countShortLong
          (SmartChunker.detectLines (str "abcDe xy\nabcDeaaaaaaaaaaaaaaaaaaaaaaaaaaaaaaaaaaaaaaaaaaaaaaaaaaaaaaaaaaaaaaaaaaaaaaaaaaaa\nabcDe xy\nabcDeaaaaaaaaaaaaaaaaaaaaaaaaaaaaaaaaaaaaaaaaaaaaaaaaaaaaaaaaaaaaaaaaaaaaaaaaaaaa")) = 2 from by decide,
        show (SmartChunker.detectLines (str "abcDe xy\nabcDeaaaaaaaaaaaaaaaaaaaaaaaaaaaaaaaaaaaaaaaaaaaaaaaaaaaaaaaaaaaaaaaaaaaaaaaaaaaa\nabcDe xy\nabcDeaaaaaaaaaaaaaaaaaaaaaaaaaaaaaaaaaaaaaaaaaaaaaaaaaaaaaaaaaaaaaaaaaaaaaaaaaaaa")).length = 4 from by decide]
    norm_num
  have e2 : SmartChunker.scoreColon (str "abcDe xy\nabcDeaaaaaaaaaaaaaaaaaaaaaaaaaaaaaaaaaaaaaaaaaaaaaaaaaaaaaaaaaaaaaaaaaaaaaaaaaaaa\nabcDe xy\nabcDeaaaaaaaaaaaaaaaaaaaaaaaaaaaaaaaaaaaaaaaaaaaaaaaaaaaaaaaaaaaaaaaaaaaaaaaaaaaa") = 0 := by
    unfold SmartChunker.scoreColon SmartChunker.detectTotal
    rw [show (SmartChunker.detectLines (str "abcDe xy\nabcDeaaaaaaaaaaaaaaaaaaaaaaaaaaaaaaaaaaaaaaaaaaaaaaaaaaaaaaaaaaaaaaaaaaaaaaaaaaaa\nabcDe xy\nabcDeaaaaaaaaaaaaaaaaaaaaaaaaaaaaaaaaaaaaaaaaaaaaaaaaaaaaaaaaaaaaaaaaaaaaaaaaaaaa")).countP
          SmartChunker.colonSig = 0 from by decide]
    norm_num
  have e3 : SmartChunker.scoreInline (str "abcDe xy\nabcDeaaaaaaaaaaaaaaaaaaaaaaaaaaaaaaaaaaaaaaaaaaaaaaaaaaaaaaaaaaaaaaaaaaaaaaaaaaaa\nabcDe xy\nabcDeaaaaaaaaaaaaaaaaaaaaaaaaaaaaaaaaaaaaaaaaaaaaaaaaaaaaaaaaaaaaaaaaaaaaaaaaaaaa") = 1 := by
    unfold SmartChunker.scoreInline SmartChunker.detectTotal
    rw [show (SmartChunker.detectLines (str "abcDe xy\nabcDeaaaaaaaaaaaaaaaaaaaaaaaaaaaaaaaaaaaaaaaaaaaaaaaaaaaaaaaaaaaaaaaaaaaaaaaaaaaa\nabcDe xy\nabcDeaaaaaaaaaaaaaaaaaaaaaaaaaaaaaaaaaaaaaaaaaaaaaaaaaaaaaaaaaaaaaaaaaaaaaaaaaaaa")).countP
          SmartChunker.inlineSig = 4 from by decide,
        show (SmartChunker.detectLines (str "abcDe xy\nabcDeaaaaaaaaaaaaaaaaaaaaaaaaaaaaaaaaaaaaaaaaaaaaaaaaaaaaaaaaaaaaaaaaaaaaaaaaaaaa\nabcDe xy\nabcDeaaaaaaaaaaaaaaaaaaaaaaaaaaaaaaaaaaaaaaaaaaaaaaaaaaaaaaaaaaaaaaaaaaaaaaaaaaaa")).length = 4 from by decide]
    norm_num
  have e4 : SmartChunker.scoreSectioned (str "abcDe xy\nabcDeaaaaaaaaaaaaaaaaaaaaaaaaaaaaaaaaaaaaaaaaaaaaaaaaaaaaaaaaaaaaaaaaaaaaaaaaaaaa\nabcDe xy\nabcDeaaaaaaaaaaaaaaaaaaaaaaaaaaaaaaaaaaaaaaaaaaaaaaaaaaaaaaaaaaaaaaaaaaaaaaaaaaaa") = 0 := by
    unfold SmartChunker.scoreSectioned SmartChunker.detectTotal
    rw [show (SmartChunker.detectLines (str "abcDe xy\nabcDeaaaaaaaaaaaaaaaaaaaaaaaaaaaaaaaaaaaaaaaaaaaaaaaaaaaaaaaaaaaaaaaaaaaaaaaaaaaa\nabcDe xy\nabcDeaaaaaaaaaaaaaaaaaaaaaaaaaaaaaaaaaaaaaaaaaaaaaaaaaaaaaaaaaaaaaaaaaaaaaaaaaaaa")).countP
          SmartChunker.sectionSig = 0 from by decide]
    norm_num
  have hwin : SmartChunker.rawWinner (str "abcDe xy\nabcDeaaaaaaaaaaaaaaaaaaaaaaaaaaaaaaaaaaaaaaaaaaaaaaaaaaaaaaaaaaaaaaaaaaaaaaaaaaaa\nabcDe xy\nabcDeaaaaaaaaaaaaaaaaaaaaaaaaaaaaaaaaaaaaaaaaaaaaaaaaaaaaaaaaaaaaaaaaaaaaaaaaaaaa") =
      SmartChunker.DocumentFormat.glossary_inline := by
    unfold SmartChunker.rawWinner
    rw [e1, e2, e3, e4]
    norm_num
  exact ((C4_detect_format_overrides (str "abcDe xy\nabcDeaaaaaaaaaaaaaaaaaaaaaaaaaaaaaaaaaaaaaaaaaaaaaaaaaaaaaaaaaaaaaaaaaaaaaaaaaaaa\nabcDe xy\nabcDeaaaaaaaaaaaaaaaaaaaaaaaaaaaaaaaaaaaaaaaaaaaaaaaaaaaaaaaaaaaaaaaaaaaaaaaaaaaa")).1 hwin).1
    (by rw [e1]; norm_num)

/-! ## Word-splitting lemmas for the narrative overlap property -/

/-- Splitting distributes over an explicit space separator. -/
theorem pySplitWsAux_append_space (b : Str) :
    ∀ (a : Str) (cur : Str),
      pySplitWsAux cur (a ++ ' ' :: b) = pySplitWsAux cur a ++ pySplitWs b := by
  intro a
  induction a with
  | nil =>
    intro cur
    show pySplitWsAux cur (' ' :: b) = pySplitWsAux cur [] ++ pySplitWs b
    by_cases h : cur.isEmpty
    · simp [pySplitWsAux, h, isPyWs, pySplitWs]
    · simp [pySplitWsAux, h, isPyWs, pySplitWs]
  | cons c a ih =>
    intro cur
    show pySplitWsAux cur (c :: (a ++ ' ' :: b)) =
      pySplitWsAux cur (c :: a) ++ pySplitWs b
    by_cases hws : isPyWs c
    · by_cases hcur : cur.isEmpty
      · simp only [pySplitWsAux, hws, hcur, if_true, ite_true]
        exact ih []
      · simp only [pySplitWsAux, hws, hcur, if_true, if_false, ite_false,
          List.cons_append]
        rw [ih []]
        simp
    · simp only [pySplitWsAux, hws, if_false, ite_false]
      exact ih (c :: cur)

theorem pySplitWs_append_space (a b : Str) :
    pySplitWs (a ++ ' ' :: b) = pySplitWs a ++ pySplitWs b :=
  pySplitWsAux_append_space b a []

/-- All-whitespace input flushes the accumulator and nothing more. -/
theorem pySplitWsAux_all_ws :
    ∀ (t : Str), (∀ c ∈ t, isPyWs c = true) →
      ∀ cur, pySplitWsAux cur t = pySplitWsAux cur [] := by
  intro t
  induction t with
  | nil => intro _ cur; rfl
  | cons c t iht =>
    intro ht cur
    have hc : isPyWs c = true := ht c (List.mem_cons_self _ _)
    have ht' : ∀ d ∈ t, isPyWs d = true :=
      fun d hd => ht d (List.mem_cons_of_mem _ hd)
    by_cases hcur : cur.isEmpty
    · have hnil : cur = [] := List.isEmpty_iff.mp hcur
      subst hnil
      simp only [pySplitWsAux, hc, if_true, ite_true]
      exact iht ht' []
    · simp only [pySplitWsAux, hc, hcur, if_true, ite_true, if_false,
        ite_false]
      rw [iht ht' []]
      rfl

/-- An all-whitespace tail contributes nothing. -/
theorem pySplitWsAux_trailing_ws {t : Str} (ht : ∀ c ∈ t, isPyWs c = true) :
    ∀ (a : Str) (cur : Str), pySplitWsAux cur (a ++ t) = pySplitWsAux cur a := by
  intro a
  induction a with
  | nil =>
    intro cur
    show pySplitWsAux cur t = pySplitWsAux cur []
    exact pySplitWsAux_all_ws t ht cur
  | cons c a ih =>
    intro cur
    show pySplitWsAux cur (c :: (a ++ t)) = pySplitWsAux cur (c :: a)
    by_cases hws : isPyWs c
    · by_cases hcur : cur.isEmpty
      · simp only [pySplitWsAux, hws, hcur, if_true, ite_true]
        exact ih []
      · simp only [pySplitWsAux, hws, hcur, if_true, ite_true, if_false,
          ite_false]
        rw [ih []]
    · simp only [pySplitWsAux, hws, if_false, ite_false]
      exact ih (c :: cur)

/-- Leading whitespace contributes nothing. -/
theorem pySplitWs_dropWhile (s : Str) :
    pySplitWs (s.dropWhile isPyWs) = pySplitWs s := by
  induction s with
  | nil => rfl
  | cons c rest ih =>
    by_cases hws : isPyWs c
    · rw [List.dropWhile_cons_of_pos hws]
      rw [ih]
      show pySplitWs rest = pySplitWsAux [] (c :: rest)
      simp only [pySplitWs, pySplitWsAux, hws, if_true, ite_true,
        List.isEmpty_nil]
    · rw [List.dropWhile_cons_of_neg hws]

/-- Stripping does not change the word list. -/
theorem pySplitWs_pyStrip (s : Str) : pySplitWs (pyStrip s) = pySplitWs s := by
  have hlead : pySplitWs (s.dropWhile isPyWs) = pySplitWs s :=
    pySplitWs_dropWhile s
  set r := s.dropWhile isPyWs with hr
  have hdec : r = pyStrip s ++ (r.reverse.takeWhile isPyWs).reverse := by
    have h1 : r.reverse.takeWhile isPyWs ++ r.reverse.dropWhile isPyWs =
        r.reverse := List.takeWhile_append_dropWhile isPyWs r.reverse
    have h2 : r = (r.reverse.takeWhile isPyWs ++
        r.reverse.dropWhile isPyWs).reverse := by
      rw [h1, List.reverse_reverse]
    rw [List.reverse_append] at h2
    exact h2
  have hws : ∀ c ∈ (r.reverse.takeWhile isPyWs).reverse, isPyWs c = true := by
    intro c hc
    exact List.mem_takeWhile_imp (List.mem_reverse.mp hc)
  calc pySplitWs (pyStrip s)
      = pySplitWsAux [] (pyStrip s ++ (r.reverse.takeWhile isPyWs).reverse) :=
        (pySplitWsAux_trailing_ws hws (pyStrip s) []).symm
    _ = pySplitWs r := by rw [← hdec]; rfl
    _ = pySplitWs s := hlead

/-- A whitespace-free accumulator and input flush to a single word. -/
theorem pySplitWsAux_no_ws :
    ∀ (x : Str), (∀ c ∈ x, isPyWs c = false) →
      ∀ cur, pySplitWsAux cur x = pySplitWsAux (x.reverse ++ cur) [] := by
  intro x
  induction x with
  | nil => intro _ cur; rfl
  | cons c x ih =>
    intro hx cur
    have hc : isPyWs c = false := hx c (List.mem_cons_self _ _)
    have hx' : ∀ d ∈ x, isPyWs d = false :=
      fun d hd => hx d (List.mem_cons_of_mem _ hd)
    show pySplitWsAux cur (c :: x) = _
    simp only [pySplitWsAux, hc, if_false, ite_false, Bool.false_eq_true]
    rw [ih hx' (c :: cur)]
    simp only [pySplitWsAux, List.reverse_append, List.reverse_cons,
      List.append_assoc, List.reverse_reverse, List.singleton_append]

/-- A single non-empty whitespace-free word splits to itself. -/
theorem pySplitWs_single_word (x : Str) (hne : x ≠ [])
    (hx : ∀ c ∈ x, isPyWs c = false) : pySplitWs x = [x] := by
  show pySplitWsAux [] x = [x]
  rw [pySplitWsAux_no_ws x hx []]
  simp only [List.append_nil, pySplitWsAux]
  rw [if_neg]
  · simp
  · simp [List.isEmpty_iff, hne]

/-- Every word produced by `pySplitWs` is non-empty and contains no
whitespace. -/
theorem pySplitWsAux_words_wf :
    ∀ (s cur : Str), (∀ c ∈ cur, isPyWs c = false) →
      ∀ x ∈ pySplitWsAux cur s, x ≠ [] ∧ ∀ c ∈ x, isPyWs c = false := by
  intro s
  induction s with
  | nil =>
    intro cur hcur x hx
    simp only [pySplitWsAux] at hx
    split at hx
    · simp at hx
    · rcases List.mem_singleton.mp hx with rfl
      rename_i hne
      refine ⟨?_, ?_⟩
      · intro h
        apply hne
        simp only [List.isEmpty_iff]
        have := congrArg List.reverse h
        simpa using this
      · intro c hc
        exact hcur c (List.mem_reverse.mp hc)
  | cons c rest ih =>
    intro cur hcur x hx
    by_cases hws : isPyWs c
    · simp only [pySplitWsAux, hws, if_true, ite_true] at hx
      split at hx
      · exact ih [] (by intro d hd; simp at hd) x hx
      · rcases List.mem_cons.mp hx with rfl | hx
        · rename_i hne
          refine ⟨?_, ?_⟩
          · intro h
            apply hne
            simp only [List.isEmpty_iff]
            have := congrArg List.reverse h
            simpa using this
          · intro d hd
            exact hcur d (List.mem_reverse.mp hd)
        · exact ih [] (by intro d hd; simp at hd) x hx
    · simp only [pySplitWsAux, hws, if_false, ite_false,
        Bool.false_eq_true] at hx
      refine ih (c :: cur) ?_ x hx
      intro d hd
      rcases List.mem_cons.mp hd with rfl | hd
      · exact Bool.eq_false_iff.mpr hws
      · exact hcur d hd

theorem pySplitWs_words_wf (s : Str) :
    ∀ x ∈ pySplitWs s, x ≠ [] ∧ ∀ c ∈ x, isPyWs c = false :=
  pySplitWsAux_words_wf s [] (by intro d hd; simp at hd)

theorem intercalate_space_cons_cons (x y : Str) (rest : List Str) :
    List.intercalate [' '] (x :: y :: rest) =
      x ++ ' ' :: List.intercalate [' '] (y :: rest) := by
  simp [List.intercalate, List.intersperse_cons_cons]

/-- Splitting the space-joined word list (followed by a space and a
tail) recovers the words followed by the split tail. -/
theorem pySplitWs_intercalate_space :
    ∀ (ws : List Str), (∀ x ∈ ws, x ≠ [] ∧ ∀ c ∈ x, isPyWs c = false) →
      ∀ b, pySplitWs (List.intercalate [' '] ws ++ ' ' :: b) =
        ws ++ pySplitWs b := by
  intro ws
  induction ws with
  | nil =>
    intro _ b
    show pySplitWsAux [] ([] ++ ' ' :: b) = [] ++ pySplitWs b
    simp only [List.nil_append]
    show pySplitWsAux [] (' ' :: b) = pySplitWs b
    have hsp : isPyWs ' ' = true := by decide
    simp only [pySplitWsAux, hsp, List.isEmpty_nil, if_true, ite_true]
    rfl
  | cons x rest ih =>
    intro h b
    have hx := h x (List.mem_cons_self _ _)
    have hrest : ∀ y ∈ rest, y ≠ [] ∧ ∀ c ∈ y, isPyWs c = false :=
      fun y hy => h y (List.mem_cons_of_mem _ hy)
    cases rest with
    | nil =>
      show pySplitWs (List.intercalate [' '] [x] ++ ' ' :: b) = x :: pySplitWs b
      have : List.intercalate [' '] [x] = x := by
        simp [List.intercalate]
      rw [this, pySplitWs_append_space, pySplitWs_single_word x hx.1 hx.2]
      rfl
    | cons y rest' =>
      rw [intercalate_space_cons_cons, List.append_assoc]
      show pySplitWs (x ++ ' ' :: (List.intercalate [' '] (y :: rest') ++
        ' ' :: b)) = _
      rw [pySplitWs_append_space, ih hrest b,
        pySplitWs_single_word x hx.1 hx.2]
      rfl

/-- If the buffer's word list extends the seed of chunk `x`, then the
stripped buffer's first `min w |words x|` words are exactly the last
`min w |words x|` words of `x`. -/
theorem seed_take {x cur : Str} (w : ℕ)
    (h : ∃ rest, pySplitWs cur =
      (pySplitWs x).drop
        ((pySplitWs x).length - min w (pySplitWs x).length) ++ rest) :
    (pySplitWs (pyStrip cur)).take (min w (pySplitWs x).length) =
      (pySplitWs x).drop
        ((pySplitWs x).length - min w (pySplitWs x).length) := by
  rcases h with ⟨rest, hrest⟩
  rw [pySplitWs_pyStrip, hrest]
  have hlen : ((pySplitWs x).drop
      ((pySplitWs x).length - min w (pySplitWs x).length)).length =
      min w (pySplitWs x).length := by
    rw [List.length_drop]
    omega
  exact List.take_left' hlen

/-- One step of the narrative sentence loop preserves the overlap
invariant: the emitted chunks are pairwise word-overlapping, and the
running buffer's word list extends the seed of the last emitted chunk. -/
theorem narrativeStep_preserves (cs w : ℕ) (st : List Str × Str)
    (sentence : Str)
    (h : List.Chain' (fun c1 c2 =>
        (pySplitWs c2).take (min w (pySplitWs c1).length) =
        (pySplitWs c1).drop
          ((pySplitWs c1).length - min w (pySplitWs c1).length)) st.1 ∧
      (∀ last, st.1.getLast? = some last →
        ∃ rest, pySplitWs st.2 =
          (pySplitWs last).drop
            ((pySplitWs last).length - min w (pySplitWs last).length) ++ rest)) :
    List.Chain' (fun c1 c2 =>
        (pySplitWs c2).take (min w (pySplitWs c1).length) =
        (pySplitWs c1).drop
          ((pySplitWs c1).length - min w (pySplitWs c1).length))
      (SmartChunker.narrativeStep cs w st sentence).1 ∧
    (∀ last, (SmartChunker.narrativeStep cs w st sentence).1.getLast? =
        some last →
      ∃ rest, pySplitWs (SmartChunker.narrativeStep cs w st sentence).2 =
        (pySplitWs last).drop
          ((pySplitWs last).length - min w (pySplitWs last).length) ++ rest) := by
  rcases st with ⟨chunks, current⟩
  rcases h with ⟨hchain, hseed⟩
  unfold SmartChunker.narrativeStep
  dsimp only
  split
  · -- emission step
    constructor
    · apply List.Chain'.append hchain (List.chain'_singleton _)
      intro x hx y hy
      simp only [List.head?_cons, Option.mem_def, Option.some.injEq] at hy
      subst hy
      exact seed_take w (hseed x (Option.mem_def.mp hx))
    · intro last hlast
      rw [List.getLast?_concat] at hlast
      cases hlast
      have hwf : ∀ y ∈ (if w < (pySplitWs current).length then
          if w = 0 then pySplitWs current
          else (pySplitWs current).drop ((pySplitWs current).length - w)
          else pySplitWs current),
          y ≠ [] ∧ ∀ c ∈ y, isPyWs c = false := by
        intro y hy
        apply pySplitWs_words_wf current
        split at hy
        · split at hy
          · exact hy
          · exact List.mem_of_mem_drop hy
        · exact hy
      rw [pySplitWs_intercalate_space _ hwf sentence, pySplitWs_pyStrip]
      by_cases h1 : w < (pySplitWs current).length
      · by_cases h2 : w = 0
        · subst h2
          simp only [h1, if_true, ite_true, if_pos rfl]
          refine ⟨pySplitWs current ++ pySplitWs sentence, ?_⟩
          have : min 0 (pySplitWs current).length = 0 := by omega
          rw [this, Nat.sub_zero, List.drop_length, List.nil_append]
        · simp only [h1, h2, if_true, ite_true, if_false, ite_false]
          refine ⟨pySplitWs sentence, ?_⟩
          have : min w (pySplitWs current).length = w := by omega
          rw [this]
      · simp only [h1, if_false, ite_false]
        refine ⟨pySplitWs sentence, ?_⟩
        have : min w (pySplitWs current).length = (pySplitWs current).length := by
          omega
        rw [this, Nat.sub_self, List.drop_zero]
  · -- accumulation step
    refine ⟨hchain, ?_⟩
    intro last hlast
    rcases hseed last hlast with ⟨rest, hrest⟩
    refine ⟨rest ++ pySplitWs sentence, ?_⟩
    rw [pySplitWs_append_space, hrest, List.append_assoc]

/-- C5: in narrative chunking with overlap `w`, for every pair of
consecutive emitted chunks, the first `min w n` words of the later chunk
equal the last `min w n` words of the earlier chunk (where `n` is the
earlier chunk's word count) — in particular the overlap prefix never
starts in the middle of a word. -/
theorem C5_narrative_word_overlap (text : Str) (cs w : ℕ) :
    List.Chain' (fun c1 c2 =>
      (pySplitWs c2).take (min w (pySplitWs c1).length) =
      (pySplitWs c1).drop
        ((pySplitWs c1).length - min w (pySplitWs c1).length))
      (SmartChunker.narrative_raw text cs w) := by
  unfold SmartChunker.narrative_raw
  dsimp only
  have hinv := foldl_inv (SmartChunker.narrativeStep cs w)
    (fun st =>
      List.Chain' (fun c1 c2 =>
        (pySplitWs c2).take (min w (pySplitWs c1).length) =
        (pySplitWs c1).drop
          ((pySplitWs c1).length - min w (pySplitWs c1).length)) st.1 ∧
      (∀ last, st.1.getLast? = some last →
        ∃ rest, pySplitWs st.2 =
          (pySplitWs last).drop
            ((pySplitWs last).length - min w (pySplitWs last).length) ++ rest))
    (fun st sentence h => narrativeStep_preserves cs w st sentence h)
    (SmartChunker.splitSentences text) ([], [])
    ⟨List.chain'_nil, by intro last hl; simp at hl⟩
  split
  · apply List.Chain'.append hinv.1 (List.chain'_singleton _)
    intro x hx y hy
    simp only [List.head?_cons, Option.mem_def, Option.some.injEq] at hy
    subst hy
    exact seed_take w (hinv.2 x (Option.mem_def.mp hx))
  · exact hinv.1

/-! ## Lemmas for the normalizer idempotence analysis -/

/-- Unfolding of a two-character infix at a cons. -/
theorem pair_infix_cons {a b x : Char} {l : Str} :
    [a, b] <:+: (x :: l) ↔ (a = x ∧ l.head? = some b) ∨ [a, b] <:+: l := by
  rw [List.infix_cons_iff]
  constructor
  · rintro (hp | hi)
    · rcases List.cons_prefix_cons.mp hp with ⟨rfl, hp2⟩
      rcases hp2 with ⟨t, ht⟩
      left
      exact ⟨rfl, by rw [← ht]; rfl⟩
    · exact Or.inr hi
  · rintro (⟨rfl, hh⟩ | hi)
    · left
      cases l with
      | nil => simp at hh
      | cons y t =>
        simp only [List.head?_cons, Option.some.injEq] at hh
        subst hh
        exact ⟨t, rfl⟩
    · exact Or.inr hi

theorem singleton_infix_iff {q : Char} {s : Str} : [q] <:+: s ↔ q ∈ s := by
  constructor
  · rintro ⟨l, r, hs⟩
    rw [← hs]
    simp
  · intro h
    rcases List.append_of_mem h with ⟨l, r, rfl⟩
    exact ⟨l, r, by simp⟩

/-- `replaceAllAux` is the identity when the pattern does not occur. -/
theorem replaceAllAux_id (pat repl : Str) :
    ∀ (f : ℕ) (s : Str), ¬ pat <:+: s → replaceAllAux pat repl f s = s := by
  intro f
  induction f with
  | zero =>
    intro s _
    cases s with
    | nil => rfl
    | cons c rest => rfl
  | succ f ih =>
    intro s hno
    cases s with
    | nil => rfl
    | cons c rest =>
      show replaceAllAux pat repl (f + 1) (c :: rest) = c :: rest
      rw [replaceAllAux]
      have hcond : (pat.isPrefixOf (c :: rest) && !pat.isEmpty) = false := by
        cases hb : pat.isPrefixOf (c :: rest) with
        | false => rfl
        | true =>
          exact absurd (List.isPrefixOf_iff_prefix.mp hb).isInfix hno
      rw [hcond]
      simp only [Bool.false_eq_true, if_false]
      rw [ih rest (fun hi => hno (List.infix_cons hi))]

/-- Characters of a replacement output come from the replacement string
or the input. -/
theorem replaceAllAux_mem (pat repl : Str) :
    ∀ (f : ℕ) (s : Str) (c0 : Char),
      c0 ∈ replaceAllAux pat repl f s → c0 ∈ repl ∨ c0 ∈ s := by
  intro f
  induction f with
  | zero =>
    intro s c0 h
    cases s with
    | nil => simp [replaceAllAux] at h
    | cons c rest => exact Or.inr h
  | succ f ih =>
    intro s c0 h
    cases s with
    | nil => simp [replaceAllAux] at h
    | cons c rest =>
      rw [replaceAllAux] at h
      split at h
      · rcases List.mem_append.mp h with hm | hm
        · exact Or.inl hm
        · rcases ih _ _ hm with hm | hm
          · exact Or.inl hm
          · exact Or.inr (List.mem_cons_of_mem _ (List.mem_of_mem_drop hm))
      · rcases List.mem_cons.mp h with rfl | hm
        · exact Or.inr (List.mem_cons_self _ _)
        · rcases ih _ _ hm with hm | hm
          · exact Or.inl hm
          · exact Or.inr (List.mem_cons_of_mem _ hm)

/-- After replacing the single character `q` it no longer occurs
(provided the replacement avoids it and the fuel suffices). -/
theorem replaceAllAux_single_not_mem (q : Char) (repl : Str) (hq : q ∉ repl) :
    ∀ (f : ℕ) (s : Str), s.length ≤ f → q ∉ replaceAllAux [q] repl f s := by
  intro f
  induction f with
  | zero =>
    intro s hlen
    cases s with
    | nil => simp [replaceAllAux]
    | cons c rest => simp at hlen
  | succ f ih =>
    intro s hlen
    cases s with
    | nil => simp [replaceAllAux]
    | cons c rest =>
      rw [replaceAllAux]
      by_cases hc : c = q
      · subst hc
        rw [if_pos]
        · intro hmem
          rcases List.mem_append.mp hmem with hm | hm
          · exact hq hm
          · simp only [List.length_cons, Nat.add_le_add_iff_right] at hlen
            simp only [List.length_singleton, Nat.sub_self, List.drop_zero] at hm
            exact ih rest hlen hm
        · simp
      · rw [if_neg]
        · intro hmem
          rcases List.mem_cons.mp hmem with h | hm
          · exact hc h.symm
          · simp only [List.length_cons, Nat.add_le_add_iff_right] at hlen
            exact ih rest hlen hm
        · simp only [Bool.and_eq_true, Bool.not_eq_true']
          intro hcontra
          have := List.isPrefixOf_iff_prefix.mp hcontra.1
          rcases List.cons_prefix_cons.mp this with ⟨h, _⟩
          exact hc h.symm

/-- The head of a replacement output is the input's head or the
replacement's first character. -/
theorem replaceAllAux_head (pat : Str) (r0 : Char) (r' : Str) :
    ∀ (f : ℕ) (s : Str),
      (replaceAllAux pat (r0 :: r') f s).head? = s.head? ∨
      (replaceAllAux pat (r0 :: r') f s).head? = some r0 := by
  intro f s
  cases s with
  | nil => left; cases f <;> rfl
  | cons c rest =>
    cases f with
    | zero => left; rfl
    | succ f =>
      rw [replaceAllAux]
      split
      · right; rfl
      · left; rfl

/-- After replacing the two-character pattern `[a, b]` by `[a, c']` the
pattern no longer occurs (conditions as in the quote-normalization
chain: `a ≠ b`, `c' ≠ b`, `c' ≠ a`). -/
theorem replaceAllAux_pair_no_occ (a b c' : Char) (hab : a ≠ b)
    (hcb : c' ≠ b) (hca : c' ≠ a) :
    ∀ (f : ℕ) (s : Str), s.length ≤ f →
      ¬ [a, b] <:+: replaceAllAux [a, b] [a, c'] f s := by
  intro f
  induction f with
  | zero =>
    intro s hlen
    cases s with
    | nil => simp [replaceAllAux]
    | cons c rest => simp at hlen
  | succ f ih =>
    intro s hlen
    cases s with
    | nil => simp [replaceAllAux]
    | cons c rest =>
      rw [replaceAllAux]
      split
      · rename_i hcond
        simp only [Bool.and_eq_true] at hcond
        have hpre := List.isPrefixOf_iff_prefix.mp hcond.1
        rcases List.cons_prefix_cons.mp hpre with ⟨rfl, hpre2⟩
        rcases hpre2 with ⟨t, ht⟩
        cases rest with
        | nil => simp at ht
        | cons r0 rest2 =>
          have hr0 : b = r0 := by
            have := congrArg List.head? ht
            simpa using this
          subst hr0
          show ¬ [a, b] <:+: (a :: c' ::
            replaceAllAux [a, b] [a, c'] f rest2)
          intro hinf
          rcases pair_infix_cons.mp hinf with ⟨_, hh⟩ | hinf2
          · simp only [List.head?_cons, Option.some.injEq] at hh
            exact hcb hh
          · rcases pair_infix_cons.mp hinf2 with ⟨hac, _⟩ | hinf3
            · exact hca hac.symm
            · have hlen2 : rest2.length ≤ f := by
                simp only [List.length_cons] at hlen
                omega
              exact ih rest2 hlen2 hinf3
      · rename_i hcond
        intro hinf
        rcases pair_infix_cons.mp hinf with ⟨rfl, hh⟩ | hinf2
        · rcases replaceAllAux_head [a, b] a [c'] f rest with he | he
          · rw [he] at hh
            apply hcond
            rw [Bool.and_eq_true]
            refine ⟨?_, by simp⟩
            apply List.isPrefixOf_iff_prefix.mpr
            cases rest with
            | nil => simp at hh
            | cons r0 rest2 =>
              simp only [List.head?_cons, Option.some.injEq] at hh
              subst hh
              exact List.cons_prefix_cons.mpr ⟨rfl, List.cons_prefix_cons.mpr
                ⟨rfl, List.nil_prefix⟩⟩
          · rw [he] at hh
            exact hab (Option.some.inj hh)
        · have hlen2 : rest.length ≤ f := by
            simp only [List.length_cons] at hlen
            omega
          exact ih rest hlen2 hinf2

/-- Replacing `[a2, b]` by `[a2, c']` cannot introduce an occurrence of
`[a1, b]` (conditions as in the quote-normalization chain). -/
theorem replaceAllAux_pair_preserve (a1 a2 b c' : Char) (hba2 : b ≠ a2)
    (hbc : b ≠ c') (ha1c : a1 ≠ c') :
    ∀ (f : ℕ) (s : Str), ¬ [a1, b] <:+: s →
      ¬ [a1, b] <:+: replaceAllAux [a2, b] [a2, c'] f s := by
  intro f
  induction f with
  | zero =>
    intro s hno
    cases s with
    | nil => simp [replaceAllAux]
    | cons c rest => exact hno
  | succ f ih =>
    intro s hno
    cases s with
    | nil => simp [replaceAllAux]
    | cons c rest =>
      rw [replaceAllAux]
      split
      · rename_i hcond
        simp only [Bool.and_eq_true] at hcond
        have hpre := List.isPrefixOf_iff_prefix.mp hcond.1
        rcases List.cons_prefix_cons.mp hpre with ⟨rfl, hpre2⟩
        rcases hpre2 with ⟨t, ht⟩
        cases rest with
        | nil => simp at ht
        | cons r0 rest2 =>
          have hr0 : b = r0 := by
            have := congrArg List.head? ht
            simpa using this
          subst hr0
          show ¬ [a1, b] <:+: (a2 :: c' ::
            replaceAllAux [a2, b] [a2, c'] f rest2)
          intro hinf
          rcases pair_infix_cons.mp hinf with ⟨_, hh⟩ | hinf2
          · simp only [List.head?_cons, Option.some.injEq] at hh
            exact hbc hh.symm
          · rcases pair_infix_cons.mp hinf2 with ⟨hac, _⟩ | hinf3
            · exact ha1c hac
            · have hno2 : ¬ [a1, b] <:+: rest2 := fun hi =>
                hno (List.infix_cons (List.infix_cons hi))
              exact ih rest2 hno2 hinf3
      · intro hinf
        rcases pair_infix_cons.mp hinf with ⟨rfl, hh⟩ | hinf2
        · rcases replaceAllAux_head [a2, b] a2 [c'] f rest with he | he
          · rw [he] at hh
            apply hno
            apply pair_infix_cons.mpr
            exact Or.inl ⟨rfl, hh⟩
          · rw [he] at hh
            exact hba2 (Option.some.inj hh).symm
        · have hno2 : ¬ [a1, b] <:+: rest := fun hi =>
            hno (List.infix_cons hi)
          exact ih rest hno2 hinf2

namespace DocumentLoader

/-- After an open space run the next emitted character is not a space. -/
theorem collapseSpacesAux_true_head :
    ∀ (s : Str), (collapseSpacesAux true s).head? ≠ some ' ' := by
  intro s
  induction s with
  | nil => simp [collapseSpacesAux]
  | cons c rest ih =>
    by_cases hc : c = ' '
    · subst hc
      simpa [collapseSpacesAux] using ih
    · simp [collapseSpacesAux, hc]

/-- Outside a space run the head is preserved. -/
theorem collapseSpacesAux_false_head (s : Str) :
    (collapseSpacesAux false s).head? = s.head? := by
  cases s with
  | nil => rfl
  | cons c rest =>
    by_cases hc : c = ' ' <;> simp [collapseSpacesAux, hc]

/-- The output of space collapsing never contains two adjacent spaces. -/
theorem collapseSpacesAux_no_double :
    ∀ (s : Str) (b : Bool), ¬ [' ', ' '] <:+: collapseSpacesAux b s := by
  intro s
  induction s with
  | nil => intro b; simp [collapseSpacesAux]
  | cons c rest ih =>
    intro b
    by_cases hc : c = ' '
    · subst hc
      cases b with
      | true =>
        simpa [collapseSpacesAux] using ih true
      | false =>
        simp only [collapseSpacesAux, if_pos rfl, if_false, ite_false,
          Bool.false_eq_true]
        intro hinf
        rcases pair_infix_cons.mp hinf with ⟨_, hh⟩ | hinf2
        · exact collapseSpacesAux_true_head rest hh
        · exact ih true hinf2
    · simp only [collapseSpacesAux, hc, if_false, ite_false]
      intro hinf
      rcases pair_infix_cons.mp hinf with ⟨hac, _⟩ | hinf2
      · exact hc hac.symm
      · exact ih false hinf2

/-- A two-character infix of the collapsed output with no spaces was an
infix of the input. -/
theorem collapseSpacesAux_pair_reflect {a c : Char} (ha : a ≠ ' ')
    (hc : c ≠ ' ') :
    ∀ (s : Str) (b : Bool),
      [a, c] <:+: collapseSpacesAux b s → [a, c] <:+: s := by
  intro s
  induction s with
  | nil => intro b h; simp [collapseSpacesAux] at h
  | cons c0 rest ih =>
    intro b h
    by_cases hc0 : c0 = ' '
    · subst hc0
      cases b with
      | true =>
        simp only [collapseSpacesAux, if_pos rfl, if_true, ite_true] at h
        exact List.infix_cons (ih true h)
      | false =>
        simp only [collapseSpacesAux, if_pos rfl, if_false, ite_false,
          Bool.false_eq_true] at h
        rcases pair_infix_cons.mp h with ⟨has, _⟩ | h2
        · exact absurd has ha
        · exact List.infix_cons (ih true h2)
    · simp only [collapseSpacesAux, hc0, if_false, ite_false] at h
      rcases pair_infix_cons.mp h with ⟨rfl, hh⟩ | h2
      · rw [collapseSpacesAux_false_head] at hh
        cases rest with
        | nil => simp at hh
        | cons r0 rest2 =>
          simp only [List.head?_cons, Option.some.injEq] at hh
          subst hh
          exact (List.cons_prefix_cons.mpr ⟨rfl,
            List.cons_prefix_cons.mpr ⟨rfl, List.nil_prefix⟩⟩).isInfix
      · exact List.infix_cons (ih false h2)

end DocumentLoader

namespace DocumentLoader

/-- When the next character is not a space the run flag is irrelevant. -/
theorem collapseSpacesAux_true_eq_false {s : Str}
    (h : s.head? ≠ some ' ') :
    collapseSpacesAux true s = collapseSpacesAux false s := by
  cases s with
  | nil => rfl
  | cons c rest =>
    have hc : c ≠ ' ' := by
      intro hc
      subst hc
      exact h rfl
    simp [collapseSpacesAux, hc]

/-- Space collapsing is the identity on strings without double spaces. -/
theorem collapseSpacesAux_id :
    ∀ (s : Str), ¬ [' ', ' '] <:+: s → collapseSpacesAux false s = s := by
  intro s
  induction s with
  | nil => intro _; rfl
  | cons c rest ih =>
    intro h
    by_cases hc : c = ' '
    · subst hc
      simp only [collapseSpacesAux, if_pos rfl, if_false, ite_false,
        Bool.false_eq_true]
      have hhead : rest.head? ≠ some ' ' := by
        intro hh
        exact h (pair_infix_cons.mpr (Or.inl ⟨rfl, hh⟩))
      rw [collapseSpacesAux_true_eq_false hhead]
      rw [ih (fun hi => h (List.infix_cons hi))]
      simp
    · simp only [collapseSpacesAux, hc, if_false, ite_false]
      rw [ih (fun hi => h (List.infix_cons hi))]

/-- Characters of the collapsed output come from the input. -/
theorem collapseSpacesAux_mem :
    ∀ (s : Str) (b : Bool) (c0 : Char),
      c0 ∈ collapseSpacesAux b s → c0 ∈ s := by
  intro s
  induction s with
  | nil => intro b c0 h; simp [collapseSpacesAux] at h
  | cons c rest ih =>
    intro b c0 h
    by_cases hc : c = ' '
    · subst hc
      cases b with
      | true =>
        simp only [collapseSpacesAux, if_pos rfl, if_true, ite_true] at h
        exact List.mem_cons_of_mem _ (ih true c0 h)
      | false =>
        simp only [collapseSpacesAux, if_pos rfl, if_false, ite_false,
          Bool.false_eq_true] at h
        rcases List.mem_cons.mp h with rfl | h2
        · exact List.mem_cons_self _ _
        · exact List.mem_cons_of_mem _ (ih true c0 h2)
    · simp only [collapseSpacesAux, hc, if_false, ite_false] at h
      rcases List.mem_cons.mp h with rfl | h2
      · exact List.mem_cons_self _ _
      · exact List.mem_cons_of_mem _ (ih false c0 h2)

end DocumentLoader

theorem digit_not_ws {c : Char} (h : isDigitChar c = true) :
    isPyWs c = false := by
  simp only [isDigitChar, Bool.and_eq_true, decide_eq_true_eq] at h
  rcases h with ⟨h1, h2⟩
  have v1 : 48 ≤ c.toNat := h1
  have v2 : c.toNat ≤ 57 := h2
  simp only [isPyWs, Bool.or_eq_false_iff, decide_eq_false_iff_not]
  refine ⟨⟨⟨⟨⟨?_, ?_⟩, ?_⟩, ?_⟩, ?_⟩, ?_⟩ <;>
    · intro hc
      rw [hc] at v1 v2
      revert v1 v2
      decide

theorem ws_not_digit {c : Char} (h : isPyWs c = true) :
    isDigitChar c = false := by
  by_contra hcontra
  rw [Bool.not_eq_false] at hcontra
  rw [digit_not_ws hcontra] at h
  exact Bool.false_ne_true h

/-- `takeWhile` passes over a satisfying prefix. -/
theorem takeWhile_append_all {p : Char → Bool} :
    ∀ (a rest : Str), (∀ c ∈ a, p c = true) →
      (a ++ rest).takeWhile p = a ++ rest.takeWhile p := by
  intro a
  induction a with
  | nil => intro rest _; rfl
  | cons c a ih =>
    intro rest h
    rw [List.cons_append,
      List.takeWhile_cons_of_pos (h c (List.mem_cons_self _ _)),
      ih rest (fun d hd => h d (List.mem_cons_of_mem _ hd)),
      List.cons_append]

/-- A failing head stops `takeWhile` immediately. -/
theorem takeWhile_eq_nil_of_head {p : Char → Bool} {s : Str}
    (h : ∀ c, s.head? = some c → p c = false) : s.takeWhile p = [] := by
  cases s with
  | nil => rfl
  | cons c rest =>
    rw [List.takeWhile_cons_of_neg]
    rw [h c rfl]
    simp

/-- The head surviving `dropWhile` does not satisfy the predicate. -/
theorem head_dropWhile_not {p : Char → Bool} :
    ∀ (l : Str) (c : Char), (l.dropWhile p).head? = some c → p c = false := by
  intro l
  induction l with
  | nil => intro c h; simp at h
  | cons c0 rest ih =>
    intro c h
    by_cases hp : p c0 = true
    · rw [List.dropWhile_cons_of_pos hp] at h
      exact ih c h
    · rw [List.dropWhile_cons_of_neg hp] at h
      simp only [List.head?_cons, Option.some.injEq] at h
      subst h
      exact Bool.eq_false_iff.mpr hp

namespace DocumentLoader

/-- With no newline and the flag down (not at a line start), the
page-number scan is the identity. -/
theorem removePageNumsAux_false_id :
    ∀ (f : ℕ) (s : Str), '\n' ∉ s → removePageNumsAux f false s = s := by
  intro f
  induction f with
  | zero => intro s _; cases s <;> rfl
  | succ f ih =>
    intro s h
    cases s with
    | nil => rfl
    | cons c rest =>
      show removePageNumsAux (f + 1) false (c :: rest) = c :: rest
      rw [removePageNumsAux]
      simp only [if_false, ite_false, Bool.false_eq_true]
      have hc : (decide (c = '\n')) = false := by
        simp only [decide_eq_false_iff_not]
        intro hcc
        exact h (hcc ▸ List.mem_cons_self _ _)
      rw [hc, ih rest (fun hm => h (List.mem_cons_of_mem _ hm))]

/-- Characters of the page-number-scan output come from the input. -/
theorem removePageNumsAux_mem :
    ∀ (f : ℕ) (ls : Bool) (s : Str) (c0 : Char),
      c0 ∈ removePageNumsAux f ls s → c0 ∈ s := by
  intro f
  induction f with
  | zero =>
    intro ls s c0 h
    cases s with
    | nil => simp [removePageNumsAux] at h
    | cons c rest => exact h
  | succ f ih =>
    intro ls s c0 h
    cases s with
    | nil => simp [removePageNumsAux] at h
    | cons c rest =>
      rw [removePageNumsAux] at h
      split at h
      · split at h
        · exact List.mem_of_mem_drop (ih _ _ _ h)
        · rcases List.mem_cons.mp h with rfl | h2
          · exact List.mem_cons_self _ _
          · exact List.mem_cons_of_mem _ (ih _ _ _ h2)
      · rcases List.mem_cons.mp h with rfl | h2
        · exact List.mem_cons_self _ _
        · exact List.mem_cons_of_mem _ (ih _ _ _ h2)

end DocumentLoader

namespace DocumentLoader

/-- In a newline-free string a page-number match reaches the end of the
string. -/
theorem matchPageNum_full {s : Str} {n : ℕ} (hnl : '\n' ∉ s)
    (h : matchPageNum s = some n) : n = s.length := by
  simp only [matchPageNum] at h
  split at h
  · exact absurd h (by simp)
  · split at h
    · rename_i heq
      have h1 : (s.takeWhile isPyWs).length ≤ s.length :=
        (List.takeWhile_prefix isPyWs).length_le
      have h3 : (s.drop (s.takeWhile isPyWs).length).length =
          s.length - (s.takeWhile isPyWs).length := List.length_drop _ _
      have h2 : ((s.drop (s.takeWhile isPyWs).length).takeWhile
          isDigitChar).length ≤ (s.drop (s.takeWhile isPyWs).length).length :=
        (List.takeWhile_prefix isDigitChar).length_le
      have h4 : ((s.drop (s.takeWhile isPyWs).length).drop
          ((s.drop (s.takeWhile isPyWs).length).takeWhile
            isDigitChar).length).length =
          (s.drop (s.takeWhile isPyWs).length).length -
          ((s.drop (s.takeWhile isPyWs).length).takeWhile
            isDigitChar).length := List.length_drop _ _
      simp only [Option.some.injEq] at h
      omega
    · split at h
      · rename_i j hfind
        exfalso
        have hmem : '\n' ∈ ((s.drop (s.takeWhile isPyWs).length).drop
            ((s.drop (s.takeWhile isPyWs).length).takeWhile
              isDigitChar).length).takeWhile isPyWs := by
          by_contra hnot
          rw [List.findIdx?_eq_none_iff.mpr] at hfind
          · exact Option.noConfusion hfind
          · intro x hx
            simp only [decide_eq_false_iff_not]
            intro hxeq
            subst hxeq
            exact hnot (List.mem_reverse.mp hx)
        have : '\n' ∈ s := by
          have m1 := (List.takeWhile_prefix isPyWs).sublist.mem hmem
          have m2 := List.mem_of_mem_drop m1
          exact List.mem_of_mem_drop m2
        exact hnl this
      · exact absurd h (by simp)

theorem removePageNumsAux_nil (f : ℕ) (ls : Bool) :
    removePageNumsAux f ls [] = [] := by
  cases f <;> rfl

/-- On a newline-free string the page-number substitution either erases
everything (a full match at position 0) or changes nothing. -/
theorem removePageNums_no_nl (s : Str) (hnl : '\n' ∉ s) :
    removePageNums s =
      match matchPageNum s with
      | some _ => []
      | none => s := by
  cases s with
  | nil =>
    show removePageNumsAux 0 true [] = _
    simp [matchPageNum, removePageNumsAux_nil]
  | cons c rest =>
    show removePageNumsAux (rest.length + 1) true (c :: rest) = _
    rw [removePageNumsAux]
    simp only [if_true, ite_true]
    cases hm : matchPageNum (c :: rest) with
    | some n =>
      have hn := matchPageNum_full hnl hm
      simp only [hn]
      rw [List.drop_length]
      exact removePageNumsAux_nil _ _
    | none =>
      have hc : (decide (c = '\n')) = false := by
        simp only [decide_eq_false_iff_not]
        intro hcc
        exact hnl (hcc ▸ List.mem_cons_self _ _)
      rw [hc,
        removePageNumsAux_false_id _ _ (fun hm2 => hnl (List.mem_cons_of_mem _ hm2))]

end DocumentLoader

/-- The stripped string is an infix of the original. -/
theorem pyStrip_infix_self (s : Str) : pyStrip s <:+: s := by
  have hsuf : s.dropWhile isPyWs <:+ s := List.dropWhile_suffix _
  have hpre : pyStrip s <+: s.dropWhile isPyWs := by
    rw [← List.reverse_suffix, pyStrip, List.reverse_reverse]
    exact List.dropWhile_suffix _
  exact hpre.isInfix.trans hsuf.isInfix

theorem pyStrip_mem {s : Str} {c : Char} (h : c ∈ pyStrip s) : c ∈ s :=
  (pyStrip_infix_self s).sublist.mem h

/-- The head of a stripped string is not whitespace. -/
theorem pyStrip_head {s : Str} {c : Char} (h : (pyStrip s).head? = some c) :
    isPyWs c = false := by
  have hpre : pyStrip s <+: s.dropWhile isPyWs := by
    rw [← List.reverse_suffix, pyStrip, List.reverse_reverse]
    exact List.dropWhile_suffix _
  rcases hpre with ⟨t, ht⟩
  cases hs : pyStrip s with
  | nil => rw [hs] at h; exact absurd h (by simp)
  | cons c0 rest =>
    rw [hs] at h ht
    simp only [List.head?_cons, Option.some.injEq] at h
    subst h
    apply head_dropWhile_not (l := s)
    rw [← ht]
    rfl

/-- The last character of a stripped string is not whitespace. -/
theorem pyStrip_getLast {s : Str} {c : Char}
    (h : (pyStrip s).getLast? = some c) : isPyWs c = false := by
  rw [pyStrip] at h
  rw [List.getLast?_reverse] at h
  exact head_dropWhile_not _ _ h

/-- Stripping is idempotent. -/
theorem pyStrip_idem (s : Str) : pyStrip (pyStrip s) = pyStrip s := by
  have h1 : (pyStrip s).dropWhile isPyWs = pyStrip s := by
    cases hs : pyStrip s with
    | nil => rfl
    | cons c rest =>
      have hc : isPyWs c = false := pyStrip_head (by rw [hs]; rfl)
      rw [List.dropWhile_cons_of_neg (by rw [hc]; simp)]
  rw [pyStrip, h1]
  have h2 : (pyStrip s).reverse.dropWhile isPyWs = (pyStrip s).reverse := by
    cases hrev2 : (pyStrip s).reverse with
    | nil => rfl
    | cons c0 rest2 =>
      have hc0 : isPyWs c0 = false := by
        have hlast : (pyStrip s).getLast? = some c0 := by
          rw [← List.head?_reverse, hrev2]
          rfl
        exact pyStrip_getLast hlast
      rw [List.dropWhile_cons_of_neg (by rw [hc0]; simp)]
  rw [h2, List.reverse_reverse]

/-- Decomposition of a string into leading whitespace, its strip, and
trailing whitespace. -/
theorem pyStrip_decomp (s : Str) :
    ∃ a b, s = a ++ pyStrip s ++ b ∧ (∀ c ∈ a, isPyWs c = true) ∧
      (∀ c ∈ b, isPyWs c = true) := by
  refine ⟨s.takeWhile isPyWs,
    ((s.dropWhile isPyWs).reverse.takeWhile isPyWs).reverse, ?_, ?_, ?_⟩
  · set r := s.dropWhile isPyWs with hr
    have hsplit : s.takeWhile isPyWs ++ r = s :=
      List.takeWhile_append_dropWhile isPyWs s
    have h1 : r.reverse.takeWhile isPyWs ++ r.reverse.dropWhile isPyWs =
        r.reverse := List.takeWhile_append_dropWhile isPyWs r.reverse
    have h2 : r = pyStrip s ++ (r.reverse.takeWhile isPyWs).reverse := by
      have h3 : r = (r.reverse.takeWhile isPyWs ++
          r.reverse.dropWhile isPyWs).reverse := by
        rw [h1, List.reverse_reverse]
      rw [List.reverse_append] at h3
      exact h3
    calc s = s.takeWhile isPyWs ++ r := hsplit.symm
      _ = s.takeWhile isPyWs ++
          (pyStrip s ++ (r.reverse.takeWhile isPyWs).reverse) := by rw [← h2]
      _ = s.takeWhile isPyWs ++ pyStrip s ++
          (r.reverse.takeWhile isPyWs).reverse := by rw [List.append_assoc]
  · intro c hc
    exact List.mem_takeWhile_imp hc
  · intro c hc
    exact List.mem_takeWhile_imp (List.mem_reverse.mp hc)

namespace DocumentLoader

theorem joinAccentAfter_no_nl :
    ∀ (s : Str), '\n' ∉ s → joinAccentAfter s = s := by
  intro s h
  induction s using joinAccentAfter.induct with
  | case1 a e rest hcond ih =>
    exact absurd (List.mem_cons_of_mem _ (List.mem_cons_self _ _)) h
  | case2 a e rest hcond ih =>
    exact absurd (List.mem_cons_of_mem _ (List.mem_cons_self _ _)) h
  | case3 c rest hne ih =>
    rw [joinAccentAfter.eq_2 c rest hne,
      ih (fun hm => h (List.mem_cons_of_mem _ hm))]
  | case4 => rfl

theorem joinAccentBefore_no_nl :
    ∀ (s : Str), '\n' ∉ s → joinAccentBefore s = s := by
  intro s h
  induction s using joinAccentBefore.induct with
  | case1 a e rest hcond ih =>
    exact absurd (List.mem_cons_of_mem _ (List.mem_cons_self _ _)) h
  | case2 a e rest hcond ih =>
    exact absurd (List.mem_cons_of_mem _ (List.mem_cons_self _ _)) h
  | case3 c rest hne ih =>
    rw [joinAccentBefore.eq_2 c rest hne,
      ih (fun hm => h (List.mem_cons_of_mem _ hm))]
  | case4 => rfl

theorem joinHyphen_no_nl :
    ∀ (s : Str), '\n' ∉ s → joinHyphen s = s := by
  intro s h
  induction s using joinHyphen.induct with
  | case1 a rest hcond ih =>
    exact absurd (List.mem_cons_of_mem _ (List.mem_cons_self _ _)) h
  | case2 a rest hcond ih =>
    exact absurd (List.mem_cons_of_mem _ (List.mem_cons_self _ _)) h
  | case3 c rest hne ih =>
    rw [joinHyphen.eq_2 c rest hne,
      ih (fun hm => h (List.mem_cons_of_mem _ hm))]
  | case4 => rfl

theorem collapseNewlinesAux_no_nl :
    ∀ (s : Str), '\n' ∉ s → ∀ k, collapseNewlinesAux k s = s := by
  intro s
  induction s with
  | nil => intro _ k; rfl
  | cons c rest ih =>
    intro h k
    have hc : c ≠ '\n' := fun hcc => h (hcc ▸ List.mem_cons_self _ _)
    rw [collapseNewlinesAux.eq_3 k c rest hc,
      ih (fun hm => h (List.mem_cons_of_mem _ hm)) 0]

end DocumentLoader

namespace DocumentLoader

/-- A stripped, newline-free string matched by the page-number pattern
is one-to-three digits. -/
theorem matchPageNum_stripped {y : Str} {n : ℕ}
    (h : matchPageNum y = some n) (hnl : '\n' ∉ y)
    (hhead : ∀ c, y.head? = some c → isPyWs c = false)
    (hlast : ∀ c, y.getLast? = some c → isPyWs c = false) :
    (∀ c ∈ y, isDigitChar c = true) ∧ 1 ≤ y.length ∧ y.length ≤ 3 := by
  have hw : y.takeWhile isPyWs = [] :=
    takeWhile_eq_nil_of_head hhead
  simp only [matchPageNum, hw, List.length_nil, List.drop_zero] at h
  split at h
  · exact absurd h (by simp)
  · rename_i hd
    simp only [Bool.or_eq_true, decide_eq_true_eq, not_or] at hd
    split at h
    · rename_i heq
      have hpref := List.takeWhile_prefix isPyWs
        (l := y.drop (y.takeWhile isDigitChar).length)
      have hall : y.drop (y.takeWhile isDigitChar).length = [] := by
        by_contra hne
        have heq2 : (y.drop (y.takeWhile isDigitChar).length).takeWhile isPyWs =
            y.drop (y.takeWhile isDigitChar).length :=
          hpref.eq_of_length heq.symm
        have hlast2 : (y.drop (y.takeWhile isDigitChar).length).getLast? =
            y.getLast? := by
          have hy : y = y.take (y.takeWhile isDigitChar).length ++
              y.drop (y.takeWhile isDigitChar).length :=
            (List.take_append_drop _ _).symm
          calc (y.drop (y.takeWhile isDigitChar).length).getLast?
              = (y.take (y.takeWhile isDigitChar).length ++
                  y.drop (y.takeWhile isDigitChar).length).getLast? :=
                (List.getLast?_append_of_ne_nil _ hne).symm
            _ = y.getLast? := by rw [← hy]
        cases hgl : (y.drop (y.takeWhile isDigitChar).length).getLast? with
        | none =>
          exact hne (List.getLast?_eq_none_iff.mp hgl)
        | some c =>
          have hcws : isPyWs c = true := by
            apply List.mem_takeWhile_imp
            rw [heq2]
            exact List.mem_of_getLast?_eq_some hgl
          rw [hlast c (by rw [← hlast2, hgl])] at hcws
          exact Bool.false_ne_true hcws
      have hlen : y.length ≤ (y.takeWhile isDigitChar).length := by
        have := congrArg List.length hall
        simp only [List.length_drop, List.length_nil] at this
        omega
      have hfull : y.takeWhile isDigitChar = y :=
        (List.takeWhile_prefix isDigitChar).eq_of_length_le hlen
      refine ⟨?_, ?_, ?_⟩
      · intro c hc
        apply List.mem_takeWhile_imp
        rw [hfull]
        exact hc
      · have hd1 : (y.takeWhile isDigitChar).length ≠ 0 := hd.1
        rw [hfull] at hd1
        omega
      · have hd2 : ¬ 3 < (y.takeWhile isDigitChar).length := hd.2
        rw [hfull] at hd2
        omega
    · split at h
      · rename_i j hfind
        exfalso
        have hmem : '\n' ∈ ((y.drop
            (y.takeWhile isDigitChar).length).takeWhile isPyWs) := by
          by_contra hnot
          rw [List.findIdx?_eq_none_iff.mpr] at hfind
          · exact Option.noConfusion hfind
          · intro x hx
            simp only [decide_eq_false_iff_not]
            intro hxeq
            subst hxeq
            exact hnot (List.mem_reverse.mp hx)
        have m1 := (List.takeWhile_prefix isPyWs).sublist.mem hmem
        exact hnl (List.mem_of_mem_drop m1)
      · exact absurd h (by simp)

/-- The page-number pattern matches whitespace + one-to-three digits +
whitespace entirely. -/
theorem matchPageNum_ws_digits_ws (a y b : Str)
    (ha : ∀ c ∈ a, isPyWs c = true) (hy : ∀ c ∈ y, isDigitChar c = true)
    (h1 : 1 ≤ y.length) (h3 : y.length ≤ 3) (hb : ∀ c ∈ b, isPyWs c = true) :
    matchPageNum (a ++ y ++ b) = some (a ++ y ++ b).length := by
  have hyhead : ∀ c, (y ++ b).head? = some c → isPyWs c = false := by
    intro c hc
    cases y with
    | nil => simp at h1
    | cons y0 yrest =>
      simp only [List.cons_append, List.head?_cons, Option.some.injEq] at hc
      subst hc
      exact digit_not_ws (hy y0 (List.mem_cons_self _ _))
  have hw : (a ++ y ++ b).takeWhile isPyWs = a := by
    rw [List.append_assoc, takeWhile_append_all a (y ++ b) ha,
      takeWhile_eq_nil_of_head hyhead, List.append_nil]
  have hdrop : (a ++ y ++ b).drop a.length = y ++ b := by
    rw [List.append_assoc]
    exact List.drop_left a (y ++ b)
  have hbhead : b.takeWhile isDigitChar = [] := by
    apply takeWhile_eq_nil_of_head
    intro c hc
    cases b with
    | nil => simp at hc
    | cons b0 brest =>
      simp only [List.head?_cons, Option.some.injEq] at hc
      subst hc
      exact ws_not_digit (hb b0 (List.mem_cons_self _ _))
  have hdig : (y ++ b).takeWhile isDigitChar = y := by
    rw [takeWhile_append_all y b hy, hbhead, List.append_nil]
  simp only [matchPageNum, hw, hdrop, hdig]
  rw [if_neg, List.drop_left y b]
  · have hws2 : b.takeWhile isPyWs = b := by
      have : ∀ c ∈ b, isPyWs c = true := hb
      exact List.takeWhile_eq_self_iff.mpr this
    rw [if_pos]
    · simp only [hws2, Option.some.injEq]
      simp only [List.length_append]
    · rw [hws2]
  · simp only [Bool.or_eq_true, decide_eq_true_eq, not_or]
    omega

end DocumentLoader

theorem replaceAll_id {pat : Str} (repl : Str) {s : Str}
    (h : ¬ pat <:+: s) : replaceAll pat repl s = s :=
  replaceAllAux_id pat repl s.length s h

theorem mem_replaceAll_of {pat repl : Str} {q : Char} (hq : q ∉ repl)
    {s : Str} (hs : q ∉ s) : q ∉ replaceAll pat repl s := by
  intro hm
  rcases replaceAllAux_mem pat repl s.length s q hm with h | h
  · exact hq h
  · exact hs h

theorem replaceAll_all {pat repl : Str} {P : Char → Prop}
    (hr : ∀ c ∈ repl, P c) {s : Str} (hs : ∀ c ∈ s, P c) :
    ∀ c ∈ replaceAll pat repl s, P c := by
  intro c hm
  rcases replaceAllAux_mem pat repl s.length s c hm with h | h
  · exact hr c h
  · exact hs c h

theorem single_gone {q : Char} {repl : Str} (hq : q ∉ repl) (s : Str) :
    q ∉ replaceAll [q] repl s :=
  replaceAllAux_single_not_mem q repl hq s.length s le_rfl

theorem pair_gone {a b c' : Char} (hab : a ≠ b) (hcb : c' ≠ b)
    (hca : c' ≠ a) (s : Str) :
    ¬ [a, b] <:+: replaceAll [a, b] [a, c'] s :=
  replaceAllAux_pair_no_occ a b c' hab hcb hca s.length s le_rfl

theorem pair_kept {a1 a2 b c' : Char} (hba2 : b ≠ a2) (hbc : b ≠ c')
    (ha1c : a1 ≠ c') {s : Str} (h : ¬ [a1, b] <:+: s) :
    ¬ [a1, b] <:+: replaceAll [a2, b] [a2, c'] s :=
  replaceAllAux_pair_preserve a1 a2 b c' hba2 hbc ha1c s.length s h

/-- The quote normalization removes all thirteen replaced patterns. -/
theorem normalizeQuotes_no_occ (x : Str) :
    (('’' ∉ DocumentLoader.normalizeQuotes x) ∧
    ('‘' ∉ DocumentLoader.normalizeQuotes x) ∧
    ('′' ∉ DocumentLoader.normalizeQuotes x) ∧
    ('“' ∉ DocumentLoader.normalizeQuotes x) ∧
    ('”' ∉ DocumentLoader.normalizeQuotes x) ∧
    (¬ ['l', 'ʼ'] <:+: DocumentLoader.normalizeQuotes x) ∧
    (¬ ['d', 'ʼ'] <:+: DocumentLoader.normalizeQuotes x) ∧
    (¬ ['s', 'ʼ'] <:+: DocumentLoader.normalizeQuotes x) ∧
    (¬ ['n', 'ʼ'] <:+: DocumentLoader.normalizeQuotes x) ∧
    (¬ ['c', 'ʼ'] <:+: DocumentLoader.normalizeQuotes x) ∧
    (¬ ['j', 'ʼ'] <:+: DocumentLoader.normalizeQuotes x) ∧
    (¬ ['m', 'ʼ'] <:+: DocumentLoader.normalizeQuotes x) ∧
    (¬ ['t', 'ʼ'] <:+: DocumentLoader.normalizeQuotes x)) := by
  refine ⟨?_, ?_, ?_, ?_, ?_, ?_, ?_, ?_, ?_, ?_, ?_, ?_, ?_⟩
  · unfold DocumentLoader.normalizeQuotes
    apply mem_replaceAll_of (by decide)
    apply mem_replaceAll_of (by decide)
    apply mem_replaceAll_of (by decide)
    apply mem_replaceAll_of (by decide)
    apply mem_replaceAll_of (by decide)
    apply mem_replaceAll_of (by decide)
    apply mem_replaceAll_of (by decide)
    apply mem_replaceAll_of (by decide)
    apply mem_replaceAll_of (by decide)
    apply mem_replaceAll_of (by decide)
    apply mem_replaceAll_of (by decide)
    apply mem_replaceAll_of (by decide)
    exact single_gone (by decide) _
  · unfold DocumentLoader.normalizeQuotes
    apply mem_replaceAll_of (by decide)
    apply mem_replaceAll_of (by decide)
    apply mem_replaceAll_of (by decide)
    apply mem_replaceAll_of (by decide)
    apply mem_replaceAll_of (by decide)
    apply mem_replaceAll_of (by decide)
    apply mem_replaceAll_of (by decide)
    apply mem_replaceAll_of (by decide)
    apply mem_replaceAll_of (by decide)
    apply mem_replaceAll_of (by decide)
    apply mem_replaceAll_of (by decide)
    exact single_gone (by decide) _
  · unfold DocumentLoader.normalizeQuotes
    apply mem_replaceAll_of (by decide)
    apply mem_replaceAll_of (by decide)
    apply mem_replaceAll_of (by decide)
    apply mem_replaceAll_of (by decide)
    apply mem_replaceAll_of (by decide)
    apply mem_replaceAll_of (by decide)
    apply mem_replaceAll_of (by decide)
    apply mem_replaceAll_of (by decide)
    apply mem_replaceAll_of (by decide)
    apply mem_replaceAll_of (by decide)
    exact single_gone (by decide) _
  · unfold DocumentLoader.normalizeQuotes
    apply mem_replaceAll_of (by decide)
    apply mem_replaceAll_of (by decide)
    apply mem_replaceAll_of (by decide)
    apply mem_replaceAll_of (by decide)
    apply mem_replaceAll_of (by decide)
    apply mem_replaceAll_of (by decide)
    apply mem_replaceAll_of (by decide)
    apply mem_replaceAll_of (by decide)
    apply mem_replaceAll_of (by decide)
    exact single_gone (by decide) _
  · unfold DocumentLoader.normalizeQuotes
    apply mem_replaceAll_of (by decide)
    apply mem_replaceAll_of (by decide)
    apply mem_replaceAll_of (by decide)
    apply mem_replaceAll_of (by decide)
    apply mem_replaceAll_of (by decide)
    apply mem_replaceAll_of (by decide)
    apply mem_replaceAll_of (by decide)
    apply mem_replaceAll_of (by decide)
    exact single_gone (by decide) _
  · unfold DocumentLoader.normalizeQuotes
    apply pair_kept (by decide) (by decide) (by decide)
    apply pair_kept (by decide) (by decide) (by decide)
    apply pair_kept (by decide) (by decide) (by decide)
    apply pair_kept (by decide) (by decide) (by decide)
    apply pair_kept (by decide) (by decide) (by decide)
    apply pair_kept (by decide) (by decide) (by decide)
    apply pair_kept (by decide) (by decide) (by decide)
    exact pair_gone (by decide) (by decide) (by decide) _
  · unfold DocumentLoader.normalizeQuotes
    apply pair_kept (by decide) (by decide) (by decide)
    apply pair_kept (by decide) (by decide) (by decide)
    apply pair_kept (by decide) (by decide) (by decide)
    apply pair_kept (by decide) (by decide) (by decide)
    apply pair_kept (by decide) (by decide) (by decide)
    apply pair_kept (by decide) (by decide) (by decide)
    exact pair_gone (by decide) (by decide) (by decide) _
  · unfold DocumentLoader.normalizeQuotes
    apply pair_kept (by decide) (by decide) (by decide)
    apply pair_kept (by decide) (by decide) (by decide)
    apply pair_kept (by decide) (by decide) (by decide)
    apply pair_kept (by decide) (by decide) (by decide)
    apply pair_kept (by decide) (by decide) (by decide)
    exact pair_gone (by decide) (by decide) (by decide) _
  · unfold DocumentLoader.normalizeQuotes
    apply pair_kept (by decide) (by decide) (by decide)
    apply pair_kept (by decide) (by decide) (by decide)
    apply pair_kept (by decide) (by decide) (by decide)
    apply pair_kept (by decide) (by decide) (by decide)
    exact pair_gone (by decide) (by decide) (by decide) _
  · unfold DocumentLoader.normalizeQuotes
    apply pair_kept (by decide) (by decide) (by decide)
    apply pair_kept (by decide) (by decide) (by decide)
    apply pair_kept (by decide) (by decide) (by decide)
    exact pair_gone (by decide) (by decide) (by decide) _
  · unfold DocumentLoader.normalizeQuotes
    apply pair_kept (by decide) (by decide) (by decide)
    apply pair_kept (by decide) (by decide) (by decide)
    exact pair_gone (by decide) (by decide) (by decide) _
  · unfold DocumentLoader.normalizeQuotes
    apply pair_kept (by decide) (by decide) (by decide)
    exact pair_gone (by decide) (by decide) (by decide) _
  · unfold DocumentLoader.normalizeQuotes
    exact pair_gone (by decide) (by decide) (by decide) _

/-- The quote normalization is the identity on strings free of its
thirteen patterns. -/
theorem normalizeQuotes_id (y : Str)
    (h1 : '’' ∉ y) (h2 : '‘' ∉ y) (h3 : '′' ∉ y) (h4 : '“' ∉ y) (h5 : '”' ∉ y) (h6 : ¬ ['l', 'ʼ'] <:+: y) (h7 : ¬ ['d', 'ʼ'] <:+: y) (h8 : ¬ ['s', 'ʼ'] <:+: y) (h9 : ¬ ['n', 'ʼ'] <:+: y) (h10 : ¬ ['c', 'ʼ'] <:+: y) (h11 : ¬ ['j', 'ʼ'] <:+: y) (h12 : ¬ ['m', 'ʼ'] <:+: y) (h13 : ¬ ['t', 'ʼ'] <:+: y) :
    DocumentLoader.normalizeQuotes y = y := by
  unfold DocumentLoader.normalizeQuotes
  rw [replaceAll_id ['\''] (fun hi => h1 (singleton_infix_iff.mp hi))]
  rw [replaceAll_id ['\''] (fun hi => h2 (singleton_infix_iff.mp hi))]
  rw [replaceAll_id ['\''] (fun hi => h3 (singleton_infix_iff.mp hi))]
  rw [replaceAll_id ['"'] (fun hi => h4 (singleton_infix_iff.mp hi))]
  rw [replaceAll_id ['"'] (fun hi => h5 (singleton_infix_iff.mp hi))]
  rw [replaceAll_id ['l', '\''] h6]
  rw [replaceAll_id ['d', '\''] h7]
  rw [replaceAll_id ['s', '\''] h8]
  rw [replaceAll_id ['n', '\''] h9]
  rw [replaceAll_id ['c', '\''] h10]
  rw [replaceAll_id ['j', '\''] h11]
  rw [replaceAll_id ['m', '\''] h12]
  rw [replaceAll_id ['t', '\''] h13]

/-- Character predicates survive quote normalization when they hold on
the input and on all replacement characters. -/
theorem normalizeQuotes_all {P : Char → Prop}
    (hap : P '\'') (hq : P '"') (hl : P 'l') (hd : P 'd') (hs : P 's')
    (hn : P 'n') (hc : P 'c') (hj : P 'j') (hm : P 'm') (ht : P 't')
    {x : Str} (hx : ∀ c ∈ x, P c) :
    ∀ c ∈ DocumentLoader.normalizeQuotes x, P c := by
  unfold DocumentLoader.normalizeQuotes
  apply replaceAll_all
  · intro c hcm
    rcases List.mem_cons.mp hcm with rfl | hcm2
    · exact ht
    · rcases List.mem_singleton.mp hcm2 with rfl
      exact hap
  apply replaceAll_all
  · intro c hcm
    rcases List.mem_cons.mp hcm with rfl | hcm2
    · exact hm
    · rcases List.mem_singleton.mp hcm2 with rfl
      exact hap
  apply replaceAll_all
  · intro c hcm
    rcases List.mem_cons.mp hcm with rfl | hcm2
    · exact hj
    · rcases List.mem_singleton.mp hcm2 with rfl
      exact hap
  apply replaceAll_all
  · intro c hcm
    rcases List.mem_cons.mp hcm with rfl | hcm2
    · exact hc
    · rcases List.mem_singleton.mp hcm2 with rfl
      exact hap
  apply replaceAll_all
  · intro c hcm
    rcases List.mem_cons.mp hcm with rfl | hcm2
    · exact hn
    · rcases List.mem_singleton.mp hcm2 with rfl
      exact hap
  apply replaceAll_all
  · intro c hcm
    rcases List.mem_cons.mp hcm with rfl | hcm2
    · exact hs
    · rcases List.mem_singleton.mp hcm2 with rfl
      exact hap
  apply replaceAll_all
  · intro c hcm
    rcases List.mem_cons.mp hcm with rfl | hcm2
    · exact hd
    · rcases List.mem_singleton.mp hcm2 with rfl
      exact hap
  apply replaceAll_all
  · intro c hcm
    rcases List.mem_cons.mp hcm with rfl | hcm2
    · exact hl
    · rcases List.mem_singleton.mp hcm2 with rfl
      exact hap
  apply replaceAll_all
  · intro c hcm
    rcases List.mem_singleton.mp hcm with rfl
    exact hq
  apply replaceAll_all
  · intro c hcm
    rcases List.mem_singleton.mp hcm with rfl
    exact hq
  apply replaceAll_all
  · intro c hcm
    rcases List.mem_singleton.mp hcm with rfl
    exact hap
  apply replaceAll_all
  · intro c hcm
    rcases List.mem_singleton.mp hcm with rfl
    exact hap
  apply replaceAll_all
  · intro c hcm
    rcases List.mem_singleton.mp hcm with rfl
    exact hap
  exact hx

/-- C2 counterexample: the normalization pipeline is not idempotent —
on `"a-\n-\nb"` the first pass glues the second hyphenated break into
`"a-\nb"`, and a second pass glues again, yielding `"ab"`. -/
theorem C2_normalize_not_idempotent_counterexample :
    DocumentLoader.clean_pdf_text
        (DocumentLoader.clean_pdf_text (str "a-\n-\nb")) ≠
      DocumentLoader.clean_pdf_text (str "a-\n-\nb") := by decide

/-- C2 (amended): the normalizer is idempotent on inputs containing no
line break and no stripped control character — on such inputs the
diacritic/hyphen line-repair rules and the newline collapsing cannot
re-fire, and each remaining step fixes the first pass's output. -/
theorem C2_normalize_idempotent_amended (x : Str) (hnl : '\n' ∉ x)
    (hctl : ∀ c ∈ x, isControlStrip c = false) :
    DocumentLoader.clean_pdf_text (DocumentLoader.clean_pdf_text x) =
      DocumentLoader.clean_pdf_text x := by
  have hzctl : ∀ c ∈ DocumentLoader.normalizeQuotes x,
      isControlStrip c = false :=
    normalizeQuotes_all (by decide) (by decide) (by decide) (by decide)
      (by decide) (by decide) (by decide) (by decide) (by decide) (by decide)
      hctl
  have hznl : '\n' ∉ DocumentLoader.normalizeQuotes x := by
    intro hmem
    have hne : ∀ c ∈ DocumentLoader.normalizeQuotes x, c ≠ '\n' :=
      normalizeQuotes_all (by decide) (by decide) (by decide) (by decide)
        (by decide) (by decide) (by decide) (by decide) (by decide)
        (by decide) (fun c hc he => hnl (he ▸ hc))
    exact hne _ hmem rfl
  have hstripc : DocumentLoader.stripControls
      (DocumentLoader.normalizeQuotes x) = DocumentLoader.normalizeQuotes x := by
    apply List.filter_eq_self.mpr
    intro c hc
    rw [hzctl c hc]
    simp
  set w0 := DocumentLoader.collapseSpaces (DocumentLoader.normalizeQuotes x)
    with hw0
  have h1 : DocumentLoader.clean_pdf_text x =
      pyStrip (DocumentLoader.collapseNewlines
        (DocumentLoader.removePageNums w0)) := by
    unfold DocumentLoader.clean_pdf_text
    rw [DocumentLoader.joinAccentAfter_no_nl x hnl,
      DocumentLoader.joinAccentBefore_no_nl x hnl,
      DocumentLoader.joinHyphen_no_nl x hnl, hstripc]
  have hmemw0 : ∀ c : Char, c ∈ w0 → c ∈ DocumentLoader.normalizeQuotes x := by
    intro c hc
    rw [hw0, DocumentLoader.collapseSpaces] at hc
    exact DocumentLoader.collapseSpacesAux_mem _ _ _ hc
  have hw0nl : '\n' ∉ w0 := fun hm => hznl (hmemw0 _ hm)
  cases hm : DocumentLoader.matchPageNum w0 with
  | some n =>
    have hrpn : DocumentLoader.removePageNums w0 = [] := by
      rw [DocumentLoader.removePageNums_no_nl _ hw0nl, hm]
    rw [h1, hrpn]
    rfl
  | none =>
    have hcn : DocumentLoader.collapseNewlines w0 = w0 :=
      DocumentLoader.collapseNewlinesAux_no_nl _ hw0nl 0
    have hrpn : DocumentLoader.removePageNums w0 = w0 := by
      rw [DocumentLoader.removePageNums_no_nl _ hw0nl, hm]
    have hy : DocumentLoader.clean_pdf_text x = pyStrip w0 := by
      rw [h1, hrpn, hcn]
    rw [hy]
    -- facts about the first pass's output y = pyStrip w0
    have fnl : '\n' ∉ pyStrip w0 := fun hmem => hw0nl (pyStrip_mem hmem)
    have fctl : ∀ c ∈ pyStrip w0, isControlStrip c = false :=
      fun c hc => hzctl c (hmemw0 _ (pyStrip_mem hc))
    have fnodbl : ¬ [' ', ' '] <:+: pyStrip w0 := by
      intro hi
      have hi2 : [' ', ' '] <:+: w0 := hi.trans (pyStrip_infix_self w0)
      rw [hw0, DocumentLoader.collapseSpaces] at hi2
      exact DocumentLoader.collapseSpacesAux_no_double _ false hi2
    have hocc := normalizeQuotes_no_occ x
    have fsingle : ∀ q : Char, q ∉ DocumentLoader.normalizeQuotes x →
        q ∉ pyStrip w0 :=
      fun q hq hmem => hq (hmemw0 _ (pyStrip_mem hmem))
    have fpair : ∀ a : Char, a ≠ ' ' →
        ¬ [a, 'ʼ'] <:+: DocumentLoader.normalizeQuotes x →
        ¬ [a, 'ʼ'] <:+: pyStrip w0 := by
      intro a ha hz hi
      have hi2 : [a, 'ʼ'] <:+: w0 := hi.trans (pyStrip_infix_self w0)
      rw [hw0, DocumentLoader.collapseSpaces] at hi2
      exact hz (DocumentLoader.collapseSpacesAux_pair_reflect ha (by decide) _
        false hi2)
    -- second pass
    unfold DocumentLoader.clean_pdf_text
    rw [DocumentLoader.joinAccentAfter_no_nl _ fnl,
      DocumentLoader.joinAccentBefore_no_nl _ fnl,
      DocumentLoader.joinHyphen_no_nl _ fnl,
      normalizeQuotes_id _ (fsingle _ hocc.1) (fsingle _ hocc.2.1)
        (fsingle _ hocc.2.2.1) (fsingle _ hocc.2.2.2.1)
        (fsingle _ hocc.2.2.2.2.1)
        (fpair _ (by decide) hocc.2.2.2.2.2.1)
        (fpair _ (by decide) hocc.2.2.2.2.2.2.1)
        (fpair _ (by decide) hocc.2.2.2.2.2.2.2.1)
        (fpair _ (by decide) hocc.2.2.2.2.2.2.2.2.1)
        (fpair _ (by decide) hocc.2.2.2.2.2.2.2.2.2.1)
        (fpair _ (by decide) hocc.2.2.2.2.2.2.2.2.2.2.1)
        (fpair _ (by decide) hocc.2.2.2.2.2.2.2.2.2.2.2.1)
        (fpair _ (by decide) hocc.2.2.2.2.2.2.2.2.2.2.2.2)]
    have hsc2 : DocumentLoader.stripControls (pyStrip w0) = pyStrip w0 := by
      apply List.filter_eq_self.mpr
      intro c hc
      rw [fctl c hc]
      simp
    rw [hsc2]
    have hcs2 : DocumentLoader.collapseSpaces (pyStrip w0) = pyStrip w0 :=
      DocumentLoader.collapseSpacesAux_id _ fnodbl
    rw [hcs2]
    have hrpn2 : DocumentLoader.removePageNums (pyStrip w0) = pyStrip w0 := by
      rw [DocumentLoader.removePageNums_no_nl _ fnl]
      cases hmy : DocumentLoader.matchPageNum (pyStrip w0) with
      | some n2 =>
        exfalso
        have hchar := DocumentLoader.matchPageNum_stripped hmy fnl
          (fun c hc => pyStrip_head hc) (fun c hc => pyStrip_getLast hc)
        rcases pyStrip_decomp w0 with ⟨a, b, hdec, hA, hB⟩
        have hfull := DocumentLoader.matchPageNum_ws_digits_ws a (pyStrip w0) b
          hA hchar.1 hchar.2.1 hchar.2.2 hB
        rw [← hdec] at hfull
        rw [hm] at hfull
        exact Option.noConfusion hfull
      | none => rfl
    rw [hrpn2]
    have hcn2 : DocumentLoader.collapseNewlines (pyStrip w0) = pyStrip w0 :=
      DocumentLoader.collapseNewlinesAux_no_nl _ fnl 0
    rw [hcn2, pyStrip_idem]

/-- Witness for the amended C2 at a concrete input. -/
theorem C2_normalize_idempotent_amended_witness :
    DocumentLoader.clean_pdf_text
        (DocumentLoader.clean_pdf_text (str "c’est  l’an 12")) =
      DocumentLoader.clean_pdf_text (str "c’est  l’an 12") :=
  C2_normalize_idempotent_amended (str "c’est  l’an 12") (by decide) (by decide)
